import Mathlib

/-!
Verification model of the `ayon-gaffer-rvx` repository (Gaffer host integration
for the AYON pipeline).  The Python sources under
`src/client/ayon_gaffer/api/pipeline.py`, `src/client/ayon_gaffer/api/lib.py`
and `src/client/ayon_gaffer/plugins/load/load_scene.py` are shallowly embedded:
Gaffer nodes and plugs become explicit Lean structures, the mutable node graph
becomes explicit state passing, and host calls that can raise become
`Option`/`Except` values.  External collaborators (the Gaffer node/plug
runtime, `ayon_core`, Python's `json` module) are modelled at their interface,
as documented on each definition.
-/

/- ===================================================================
   Leaf plug values (Gaffer StringPlug / BoolPlug / FloatPlug / IntPlug).
   The program only stores and compares float payloads, it never computes
   with them, so the payload of a FloatPlug is modelled as an opaque
   integer tag.
   =================================================================== -/

/-- Value held by a leaf `user` plug.  The constructor is the plug's type
(StringPlug, BoolPlug, FloatPlug, IntPlug). -/
inductive PValue where
  | str (s : String)
  | bool (b : Bool)
  | float (f : Int)
  | int (n : Int)
deriving DecidableEq

/-- A Python value passed to `imprint` in the `data` dict
(`pipeline.py:240`).  `dict` values are carried together with their
`json.dumps` serialisation (the serialiser itself is Python's external
`json` module); `pynone` is Python's `None`. -/
inductive DValue where
  | str (s : String)
  | bool (b : Bool)
  | float (f : Int)
  | int (n : Int)
  | dict (serialized : String)
  | pynone
deriving DecidableEq

/-- Model of `plug.setValue(value)` on an existing leaf plug: it succeeds
exactly when the value's type matches the plug's type and raises
otherwise (`none`).  Cross-type numeric coercions of the host bindings
are not modelled.  Setting Python `None` always raises. -/
def trySetValue : PValue → DValue → Option PValue
  | PValue.str _, DValue.str s => some (PValue.str s)
  | PValue.bool _, DValue.bool b => some (PValue.bool b)
  | PValue.float _, DValue.float f => some (PValue.float f)
  | PValue.int _, DValue.int n => some (PValue.int n)
  | _, _ => none

/-- Lookup of a named child plug in a compound plug (`key in user`,
`user[key]`).  Gaffer child names are unique, so the first match is the
child. -/
def lookupKey : List (String × PValue) → String → Option PValue
  | [], _ => none
  | kv :: rest, k => if kv.1 = k then some kv.2 else lookupKey rest k

/-- Model of `compound[key] = plug`: replace the existing child of that
name, else append a new child. -/
def setKey : List (String × PValue) → String → PValue → List (String × PValue)
  | [], k, v => [(k, v)]
  | kv :: rest, k, v => if kv.1 = k then (k, v) :: rest else kv :: setKey rest k v

/- ===================================================================
   `imprint` (pipeline.py:240-301)
   =================================================================== -/

/-- `JSON_PREFIX` from `pipeline.py:39`. -/
def JSON_PREFIX : String := "JSON:::"

/-- The "Dict to JSON" step at the top of the `imprint` loop
(`pipeline.py:262-264`): a dict value becomes the string
`JSON:::` + `json.dumps(value)` before anything else happens. -/
def dvalAsStored : DValue → DValue
  | DValue.dict s => DValue.str (JSON_PREFIX ++ s)
  | v => v

/-- The plug-creation block of `imprint` (`pipeline.py:281-296`):
`None` becomes the string `"<None>"`, then a fresh plug is created whose
type matches the value (StringPlug for str, BoolPlug for bool, FloatPlug
for float, IntPlug for int; bool is tested before int, as in the source). -/
def freshPlug : DValue → PValue
  | DValue.str s => PValue.str s
  | DValue.bool b => PValue.bool b
  | DValue.float f => PValue.float f
  | DValue.int n => PValue.int n
  | DValue.dict s => PValue.str (JSON_PREFIX ++ s)
  | DValue.pynone => PValue.str "<None>"

/-- The Gaffer type name of a plug value. -/
def plugTypeName : PValue → String
  | PValue.str _ => "StringPlug"
  | PValue.bool _ => "BoolPlug"
  | PValue.float _ => "FloatPlug"
  | PValue.int _ => "IntPlug"

/-- The plug type `imprint` creates for a given data value
(`pipeline.py:285-292`): StringPlug for str (also for serialised dicts
and for `None`, which becomes the string `"<None>"`), BoolPlug for bool,
FloatPlug for float, IntPlug for int. -/
def dvalPlugType : DValue → String
  | DValue.str _ => "StringPlug"
  | DValue.bool _ => "BoolPlug"
  | DValue.float _ => "FloatPlug"
  | DValue.int _ => "IntPlug"
  | DValue.dict _ => "StringPlug"
  | DValue.pynone => "StringPlug"

/-- One iteration of the `for key, value in data.items()` loop of
`imprint` (`pipeline.py:260-301`), acting on the node's `user` compound:
dict values are serialised; if the key already exists `setValue` is
tried and on failure (type mismatch) the plug is replaced by a freshly
created one; if the key is new, a fresh plug is added. -/
def imprintStep (user : List (String × PValue)) (kv : String × DValue) :
    List (String × PValue) :=
  let v := dvalAsStored kv.2
  match lookupKey user kv.1 with
  | some old =>
    match trySetValue old v with
    | some newv => setKey user kv.1 newv
    | none => setKey user kv.1 (freshPlug v)
  | none => setKey user kv.1 (freshPlug v)

/-- `imprint(node, data)` (`pipeline.py:240-301`) acting on the `user`
compound of the node; `data` is the dict in insertion order. -/
def imprint (user : List (String × PValue)) (data : List (String × DValue)) :
    List (String × PValue) :=
  data.foldl imprintStep user

/- ===================================================================
   Nodes, scripts and containers (pipeline.py:114-156, 207-237)
   =================================================================== -/

/-- A direct child node of the root script.  `user` is the node's `user`
compound plug (`none` when the node has no user compound, the
`"user" not in node` case of `get_containers`); `fileName` models the
node's `fileName` string plug (used by SceneReader container nodes). -/
structure Node where
  name : String
  user : Option (List (String × PValue))
  fileName : String
deriving DecidableEq

/-- The root `Gaffer.ScriptNode`.  `fileName` is its `fileName` plug,
`loadedFrom` records the effect of `script.load()` (the host loads the
serialised file named by the `fileName` plug), `user` is the script's own
`user` compound, `vars` its context variables, `nodes` its child nodes. -/
structure Script where
  scriptName : String
  fileName : String
  loadedFrom : Option String
  user : Option (List (String × PValue))
  vars : List (String × String)
  nodes : List Node
deriving DecidableEq

/-- `AYON_CONTAINER_ID` imported from `ayon_core.pipeline` (external
constant; only its identity matters to this code). -/
def AYON_CONTAINER_ID : String := "ayon.container"

/-- `AVALON_CONTAINER_ID` imported from `ayon_core.pipeline` (external
constant). -/
def AVALON_CONTAINER_ID : String := "pyblish.avalon.container"

/-- The `required` key list of `get_containers` (`pipeline.py:117-119`). -/
def requiredKeys : List String := ["schema", "id", "name", "namespace", "representation", "loader"]

/-- The container dict yielded by `get_containers` (`pipeline.py:132-136`):
the six required keys mapped to their plug values, plus `objectName`
(the node's full name) and `_node` (the node itself). -/
structure Container where
  schema : PValue
  id : PValue
  cname : PValue
  nspace : PValue
  representation : PValue
  loader : PValue
  objectName : String
  nodeRef : Node
deriving DecidableEq

/-- `node.fullName()` of a direct child of the root script. -/
def fullName (s : Script) (n : Node) : String := s.scriptName ++ "." ++ n.name

/-- The three `continue` guards of the `get_containers` loop
(`pipeline.py:121-131`): the node has a `user` compound, every required
key is present under it, and the value of `user["id"]` is
`AYON_CONTAINER_ID` or `AVALON_CONTAINER_ID` (a non-string id plug value
is never in that set). -/
def isContainerNode (n : Node) : Bool :=
  match n.user with
  | none => false
  | some user =>
    requiredKeys.all (fun k => (lookupKey user k).isSome) &&
    (match lookupKey user "id" with
     | some (PValue.str s) => s == AYON_CONTAINER_ID || s == AVALON_CONTAINER_ID
     | _ => false)

/-- Plug value looked up for container construction; total because every
required key of a qualifying node is present. -/
def getKeyD (user : List (String × PValue)) (k : String) : PValue :=
  (lookupKey user k).getD (PValue.str "")

/-- The container dict built for one qualifying node
(`pipeline.py:132-136`). -/
def mkContainer (s : Script) (n : Node) : Container :=
  let user := n.user.getD []
  { schema := getKeyD user "schema"
    id := getKeyD user "id"
    cname := getKeyD user "name"
    nspace := getKeyD user "namespace"
    representation := getKeyD user "representation"
    loader := getKeyD user "loader"
    objectName := fullName s n
    nodeRef := n }

/-- `GafferHost.get_containers` (`pipeline.py:114-138`): iterate the
direct children of the root script and yield a container dict for each
node that passes the guards. -/
def get_containers (s : Script) : List Container :=
  s.nodes.filterMap (fun n => if isContainerNode n then some (mkContainer s n) else none)

/-- The `context` argument of `imprint_container`; only
`context["representation"]["id"]` is read (`pipeline.py:235`). -/
structure Ctx where
  representationId : String
deriving DecidableEq

/-- `imprint_container(node, name, namespace, context, loader)`
(`pipeline.py:207-237`): imprint the fixed six-key data dict, in source
order, onto the node's `user` compound.  `none` when the node has no
`user` compound (the host would raise a KeyError inside `imprint`). -/
def imprint_container (n : Node) (name nspace : String) (ctx : Ctx)
    (loader : String) : Option Node :=
  match n.user with
  | none => none
  | some user =>
    some { n with user := some (imprint user
      [("schema", DValue.str "openpype:container-2.0"),
       ("id", DValue.str AYON_CONTAINER_ID),
       ("name", DValue.str name),
       ("namespace", DValue.str nspace),
       ("loader", DValue.str loader),
       ("representation", DValue.str ctx.representationId)]) }

/- ===================================================================
   Context data (pipeline.py:140-156)
   =================================================================== -/

/-- JSON values, the data handled by `update_context_data` /
`get_context_data`.  Serialisation (`json.dumps`) and parsing
(`json.loads`) are Python's external `json` module and are passed as
parameters to the models below. -/
inductive Json where
  | null
  | jbool (b : Bool)
  | jnum (n : Int)
  | jstr (s : String)
  | jarr (xs : List Json)
  | jobj (kvs : List (String × Json))

/-- The reserved key `GafferHost._context_plug` (`pipeline.py:53`). -/
def ayonContextPlug : String := "ayon_context"

/-- `GafferHost.update_context_data` (`pipeline.py:140-149`): store
`json.dumps(data)` in a StringPlug under the reserved key of the
script's `user` compound, always overriding an existing plug.  `none`
when the script has no `user` compound (host KeyError). -/
def update_context_data (dumps : Json → String) (s : Script) (data : Json) :
    Option Script :=
  match s.user with
  | none => none
  | some user =>
    some { s with user := some (setKey user ayonContextPlug (PValue.str (dumps data))) }

/-- `GafferHost.get_context_data` (`pipeline.py:151-156`): if the
reserved key exists under the script's `user` compound, parse its string
value, otherwise return the empty dict.  A non-string plug under the
reserved key would make `json.loads` fail (`none`). -/
def get_context_data (loads : String → Json) (s : Script) : Option Json :=
  match s.user with
  | none => some (Json.jobj [])
  | some user =>
    match lookupKey user ayonContextPlug with
    | none => some (Json.jobj [])
    | some (PValue.str str) => some (loads str)
    | some _ => none

/- ===================================================================
   `open_workfile` (pipeline.py:99-108)
   =================================================================== -/

/-- `GafferHost.open_workfile(filepath)` (`pipeline.py:99-108`).
`pathExists` models `os.path.exists`; `onSceneNewVars` models the
variable updates performed by `_on_scene_new` (project root directory,
context variables, framerate - all host/settings calls touching only
the script's variables).  On a missing file the RuntimeError is raised
before the script is touched; otherwise the `fileName` plug is set, the
script is loaded from it, `_on_scene_new` runs and `filepath` is
returned. -/
def open_workfile (pathExists : String → Bool)
    (onSceneNewVars : List (String × String) → List (String × String))
    (s : Script) (filepath : String) : Except String String × Script :=
  if !(pathExists filepath) then
    (Except.error ("File does not exist: " ++ filepath), s)
  else
    let s1 := { s with fileName := filepath }
    let s2 := { s1 with loadedFrom := some s1.fileName }
    let s3 := { s2 with vars := onSceneNewVars s2.vars }
    (Except.ok filepath, s3)

/- ===================================================================
   `GafferLoadScene.update` / `.switch` (load_scene.py:42-54)
   =================================================================== -/

/-- The `representation` entity passed to `update`/`switch`; only
`representation["_id"]` is read directly, the rest is consumed by the
external `get_representation_path`. -/
structure ReprEntity where
  reprId : String
deriving DecidableEq

/-- `path.replace("\\", "/")`. -/
def replaceBackslashes (s : String) : String :=
  String.mk (s.data.map (fun c => if c = '\\' then '/' else c))

/-- `GafferLoadScene.update(container, representation)`
(`load_scene.py:45-54`): set the container node's `fileName` plug to the
representation path with backslashes replaced by forward slashes, then
set the node's `user["representation"]` plug to `str(representation["_id"])`.
`getRepresentationPath` models the external
`openpype.pipeline.get_representation_path`.  `none` when the node has
no user compound, the `representation` plug is missing, or its
`setValue` raises (all host errors). -/
def update_load_scene (getRepresentationPath : ReprEntity → String)
    (container : Container) (representation : ReprEntity) : Option Node :=
  let path := replaceBackslashes (getRepresentationPath representation)
  let node := container.nodeRef
  let node1 := { node with fileName := path }
  match node1.user with
  | none => none
  | some user =>
    match lookupKey user "representation" with
    | none => none
    | some old =>
      match trySetValue old (DValue.str representation.reprId) with
      | none => none
      | some v => some { node1 with user := some (setKey user "representation" v) }

/-- `GafferLoadScene.switch(container, representation)`
(`load_scene.py:42-43`): the body is exactly `self.update(container,
representation)`. -/
def switch_load_scene (getRepresentationPath : ReprEntity → String)
    (container : Container) (representation : ReprEntity) : Option Node :=
  update_load_scene getRepresentationPath container representation

/- ===================================================================
   `get_next_valid_name` (lib.py:271-317)

   Python regex semantics are modelled explicitly:

   * `re.search(r'([a-zA-Z0-9_]*)(#+)([a-zA-Z0-9_]*)', template)` -
     the leftmost match starts at the beginning of the maximal
     `[a-zA-Z0-9_]` run ending at the first `'#'` (group 1, since `'#'`
     is not in the class and the class may match empty), group 2 is the
     maximal run of `'#'` from there, group 3 the maximal
     `[a-zA-Z0-9_]` run after it.  No match iff the template has no
     `'#'`.

   * `re.match(f"{head}.*{tail}", name)` - `head` and `tail` consist of
     `[a-zA-Z0-9_]` characters only (they are groups of the previous
     class), so they contain no regex metacharacters; the unanchored-end
     prefix match holds iff `head` is a prefix of `name` and `tail`
     occurs somewhere in the remainder.

   * `re.search(r'(.*)_*(\d+)(.*)', last_name)` - the greedy `(.*)`
     consumes everything before the last digit, so a match exists iff
     `last_name` contains a digit and group 2 is exactly the last digit
     character.

   * `ex_names.sort(reverse=True)` followed by `ex_names[0]` picks the
     lexicographically greatest name (code-point order).

   Names are modelled as `List Char`.
   =================================================================== -/

/-- The character class `[a-zA-Z0-9_]` (explicit ASCII class in the
source pattern). -/
def wordChar (c : Char) : Bool :=
  ('a' ≤ c && c ≤ 'z') || ('A' ≤ c && c ≤ 'Z') || ('0' ≤ c && c ≤ '9') || c == '_'

/-- ASCII digit, the `\d` class as it applies to the node names handled
here. -/
def isDigitChar (c : Char) : Bool := '0' ≤ c && c ≤ '9'

/-- `re.search(r'([a-zA-Z0-9_]*)(#+)([a-zA-Z0-9_]*)', template)`
(`lib.py:288-293`), returning `(head, padding, tail)` on a match. -/
def findHashBlock (t : List Char) : Option (List Char × List Char × List Char) :=
  if t.contains '#' then
    let pre := t.takeWhile (fun c => c ≠ '#')
    let head := (pre.reverse.takeWhile wordChar).reverse
    let afterPre := t.drop pre.length
    let padding := afterPre.takeWhile (fun c => c = '#')
    let tail := (afterPre.drop padding.length).takeWhile wordChar
    some (head, padding, tail)
  else none

/-- `needle` occurs as a contiguous subsequence of `hay`. -/
def containsSeq (needle hay : List Char) : Bool :=
  hay.tails.any (fun t => needle.isPrefixOf t)

/-- `re.match(f"{head}.*{tail}", name)` (`lib.py:304`): `head` is a
prefix of `name` and `tail` occurs in the remainder (the match is
anchored at the start only). -/
def headTailMatch (head tail name : List Char) : Bool :=
  head.isPrefixOf name && containsSeq tail (name.drop head.length)

/-- Python string `<` : lexicographic comparison by code point. -/
def lexLt : List Char → List Char → Bool
  | [], [] => false
  | [], _ :: _ => true
  | _ :: _, [] => false
  | a :: as, b :: bs => if a < b then true else if b < a then false else lexLt as bs

/-- `ex_names.sort(reverse=True)` followed by taking `ex_names[0]`: the
lexicographically greatest element (ties are equal strings, so any
maximum is the same value). -/
def listMaxLex (x : List Char) (xs : List (List Char)) : List Char :=
  xs.foldl (fun best y => if lexLt best y then y else best) x

/-- Group 2 of `re.search(r'(.*)_*(\d+)(.*)', last_name)`: the last
digit character of the name, if any. -/
def lastDigit (s : List Char) : Option Char := s.reverse.find? isDigitChar

/-- Numeric value of a digit character. -/
def digitVal (c : Char) : Nat := c.toNat - '0'.toNat

/-- Decimal digits of a natural number. -/
def natChars (n : Nat) : List Char := (Nat.repr n).data

/-- `str(next_number).zfill(pad_len)` (`lib.py:315`). -/
def zfill (width : Nat) (s : List Char) : List Char :=
  List.replicate (width - s.length) '0' ++ s

/-- `get_next_valid_name(template, script_node)` (`lib.py:271-317`),
with the script node represented by the list of its children's names
(`script_node.children()`).  Returns `none` where the source raises
`UnboundLocalError` (a matching child exists but the greatest one
contains no digit, so `next_number` is never assigned). -/
def get_next_valid_name (template : List Char) (childNames : List (List Char)) :
    Option (List Char) :=
  match findHashBlock template with
  | none => some template
  | some (head, padding, tail) =>
    let exNames := childNames.filter (fun nm => headTailMatch head tail nm)
    match exNames with
    | [] => some (head ++ zfill padding.length (natChars 1) ++ tail)
    | x :: xs =>
      let lastName := listMaxLex x xs
      match lastDigit lastName with
      | none => none
      | some d => some (head ++ zfill padding.length (natChars (digitVal d + 1)) ++ tail)

/- ===================================================================
   `append_to_csv_plug` (lib.py:705-719)
   =================================================================== -/

/-- Python `s.split(sep)` for a single-character separator: splitting
the empty string yields `[""]`, and every separator occurrence starts a
new element. -/
def pySplit (sep : Char) : List Char → List (List Char)
  | [] => [[]]
  | c :: rest =>
    let r := pySplit sep rest
    if c = sep then [] :: r
    else
      match r with
      | [] => [[c]]
      | h :: t => (c :: h) :: t

/-- Python `sep.join(xs)` for a single-character separator. -/
def pyJoin (sep : Char) : List (List Char) → List Char
  | [] => []
  | [x] => x
  | x :: rest => x ++ sep :: pyJoin sep rest

/-- `append_to_csv_plug(plug, value_to_add, allow_duplicates)`
(`lib.py:705-719`) acting on the plug's string value: split the current
value on commas, append `value_to_add` (unconditionally with
`allow_duplicates`, otherwise only when it is not already an element),
and store the comma-join. -/
def append_to_csv_plug (current valueToAdd : List Char)
    (allowDuplicates : Bool) : List Char :=
  let valueList := pySplit ',' current
  let valueList' :=
    if allowDuplicates then valueList ++ [valueToAdd]
    else if valueList.contains valueToAdd then valueList
    else valueList ++ [valueToAdd]
  pyJoin ',' valueList'

/- ===================================================================
   `traverse_scene` (lib.py:346-370)

   The scene read through `scene_plug.childNames(path)` is modelled as a
   finite tree of named children; the traversal carries each queued path
   together with the subtree it resolves to (path strings are built
   exactly as in the source: parent with trailing `'/'` stripped, then
   `'/'`, then the child name).  Paths and names are `List Char`.
   =================================================================== -/

/-- A finite scene (sub)tree: the named children at this location. -/
inductive STree where
  | mk (children : List (List Char × STree))

/-- The children list of a scene tree node. -/
def STree.children : STree → List (List Char × STree)
  | .mk cs => cs

/-- Python `path.rstrip('/')`. -/
def pyRstripSlash (s : List Char) : List Char :=
  (s.reverse.dropWhile (fun c => c = '/')).reverse

/-- `f"{path.rstrip('/')}/{child_name}"` (`lib.py:369`). -/
def childPath (p : List Char) (n : List Char) : List Char :=
  pyRstripSlash p ++ '/' :: n

/-- Number of tree nodes in a forest (used as the termination measure of
the queue-based traversal). -/
def sizeForest : List (List Char × STree) → Nat
  | [] => 0
  | (_, STree.mk cs) :: rest => 1 + sizeForest cs + sizeForest rest

/-- The queue entries pushed for the children of a dequeued entry. -/
def childEntries (p : List Char) (t : STree) : List (List Char × STree) :=
  t.children.map (fun c => (childPath p c.1, c.2))

/-- The `SimpleQueue` loop of `traverse_scene` (`lib.py:362-370`): pop a
path, yield it, push each child path at the back of the queue. -/
def traverseQueue : List (List Char × STree) → List (List Char)
  | [] => []
  | (p, t) :: rest => p :: traverseQueue (rest ++ childEntries p t)
termination_by q => sizeForest q
decreasing_by
  cases t with
  | mk cs =>
    have h1 : ∀ (l1 l2 : List (List Char × STree)),
        sizeForest (l1 ++ l2) = sizeForest l1 + sizeForest l2 := by
      intro l1
      induction l1 with
      | nil => intro l2; simp [sizeForest]
      | cons hd tl ih =>
        intro l2
        obtain ⟨n, t⟩ := hd
        cases t with
        | mk cs' => simp [sizeForest, ih]; omega
    have h2 : ∀ (p : List Char) (cs : List (List Char × STree)),
        sizeForest (childEntries p (STree.mk cs)) = sizeForest cs := by
      intro p cs
      induction cs with
      | nil => simp [childEntries, sizeForest, STree.children]
      | cons hd tl ih =>
        obtain ⟨n, t⟩ := hd
        cases t with
        | mk cs' =>
          simp only [childEntries, STree.children, List.map_cons] at ih ⊢
          simp [sizeForest, ih]
    simp only [h1, h2, sizeForest]
    omega

/-- `traverse_scene(scene_plug, root)` (`lib.py:346-370`): breadth-first
traversal of the scene below `root`, yielding `root` itself first. -/
def traverse_scene (t : STree) (root : List Char) : List (List Char) :=
  traverseQueue [(root, t)]

/-- Paths of the tree positions exactly `d` levels below `root`, in
left-to-right order, built with the same `childPath` construction as
the traversal. -/
def pathsAtDepth : Nat → List Char → STree → List (List Char)
  | 0, p, _ => [p]
  | d + 1, p, t => (t.children.map (fun c => pathsAtDepth d (childPath p c.1) c.2)).flatten

/-- Number of nodes of a scene tree (the traversal's queue measure for
the singleton queue). -/
def STree.size : STree → Nat
  | .mk cs => 1 + sizeForest cs

/-- All child entries pushed for a whole queue (one breadth-first
generation). -/
def forestChildren (q : List (List Char × STree)) : List (List Char × STree) :=
  q.flatMap (fun pt => childEntries pt.1 pt.2)

/-- The paths of a queue's entries. -/
def forestLevel (q : List (List Char × STree)) : List (List Char) :=
  q.map Prod.fst

/-- Paths exactly `d` levels below the entries of a queue. -/
def forestPathsAtDepth (d : Nat) (q : List (List Char × STree)) :
    List (List Char) :=
  (q.map (fun pt => pathsAtDepth d pt.1 pt.2)).flatten

/-- Fold a sequence of child names into a path, one `childPath` step per
name. -/
def renderPath (root : List Char) : List (List Char) → List Char
  | [] => root
  | n :: ns => renderPath (childPath root n) ns

/-- The name sequences leading from the root of a tree to each position
exactly `d` levels below it, in left-to-right order. -/
def seqsAtDepth : Nat → STree → List (List (List Char))
  | 0, _ => [[]]
  | d + 1, t =>
    (t.children.map (fun c => (seqsAtDepth d c.2).map (fun s => c.1 :: s))).flatten

/-- Host invariants on scene names under which paths are unambiguous:
sibling names are distinct, and every name is nonempty and contains no
`'/'` (Gaffer scene-graph names can be neither).  `goodForest` checks a
list of (name, subtree) pairs, including each subtree recursively. -/
def goodForest : List (List Char × STree) → Bool
  | [] => true
  | (n, STree.mk cs) :: rest =>
    decide (n ≠ []) && decide ('/' ∉ n) && decide ((cs.map Prod.fst).Nodup) &&
    goodForest cs && goodForest rest

/-- Host invariants for a whole scene tree: see `goodForest`. -/
def goodScene : STree → Bool
  | .mk cs => decide ((cs.map Prod.fst).Nodup) && goodForest cs

/- ===================================================================
   `replace_node` / `get_node_connections` (lib.py:451-523, 582-635)

   The node graph is modelled explicitly: a script holds a list of
   nodes, each node a tree of plugs; plug input connections are a
   finite map from destination plug address to source plug address
   (in Gaffer the input is a property of the destination plug; a plug
   has at most one input).  Nodes are identified by an immutable id
   (`setName` only changes the display name), and a plug address is a
   node id together with the path of child-plug names - the same data
   the source encodes as `plug.relativeName(node)` joined with `'.'`
   and decodes with `src.split('.')` (Gaffer plug names cannot contain
   `'.'`, so the round trip is exact).

   Scope of the model, matching what `replace_node` exercises: script
   children are nodes, plugs do not contain nodes; plug metadata is not
   modelled; the final value-restoring `enabled` toggle hack
   (lib.py:516-523) sets each upstream `enabled` plug back to the value
   it started from and is a net no-op on this state.  Removing a node
   from its parent severs the connections between its plugs and the
   rest of the graph, as the host does.
   =================================================================== -/

/-- Address of a plug in the script: owning node id and child-name path. -/
structure Addr where
  node : Nat
  path : List String
deriving DecidableEq

/-- A plug: serialisable flag, current value and default value (leaf
plugs; `none` on compounds, whose `getValue` raises), and child plugs. -/
inductive PlugTree where
  | mk (ser : Bool) (value : Option PValue) (dflt : Option PValue)
       (children : List (String × PlugTree))

/-- Serialisable flag of a plug. -/
def PlugTree.ser : PlugTree → Bool
  | .mk s _ _ _ => s

/-- Current value of a plug (`plug.getValue()`; `none` when it raises). -/
def PlugTree.value : PlugTree → Option PValue
  | .mk _ v _ _ => v

/-- Default value of a plug (`plug.defaultValue()`). -/
def PlugTree.dflt : PlugTree → Option PValue
  | .mk _ _ d _ => d

/-- Child plugs of a plug. -/
def PlugTree.children : PlugTree → List (String × PlugTree)
  | .mk _ _ _ cs => cs

/-- A node of the script: immutable id, current name, top-level plugs. -/
structure GNode where
  nid : Nat
  name : String
  plugs : List (String × PlugTree)
deriving Inhabited

/-- The script graph: its nodes, and the plug input map (destination
address paired with its source address). -/
structure GScript where
  nodes : List GNode
  inputs : List (Addr × Addr)

/-- Resolve a plug path on a node's plug list (`getChild` walk /
`target_plug[part]` walk). -/
def findPlug : List String → List (String × PlugTree) → Option PlugTree
  | [], _ => none
  | [k], plugs => (plugs.find? (fun c => c.1 = k)).map (·.2)
  | k :: rest, plugs =>
    match plugs.find? (fun c => c.1 = k) with
    | none => none
    | some c => findPlug rest c.2.children

/-- `get_all_plugs(in_node, thelist)` (lib.py:554-561) with the default
`include_non_serializable=True`, as both callers in `replace_node` and
`get_node_connections` use it: the paths of all plugs of the node in
preorder (a plug is visited, then its children if it has any). -/
def get_all_plugs : List (String × PlugTree) → List (List String)
  | [] => []
  | (n, PlugTree.mk _ _ _ cs) :: rest =>
    ([n] :: (get_all_plugs cs).map (n :: ·)) ++ get_all_plugs rest

/-- `plug.getInput()` as recorded in the script's input map. -/
def getInput (s : GScript) (a : Addr) : Option Addr :=
  (s.inputs.find? (fun e => e.1 = a)).map (·.2)

/-- `plug.setInput(src)` (including `setInput(None)`, a disconnect):
every entry for the destination is dropped and the new connection, if
any, is recorded. -/
def setInput (s : GScript) (a : Addr) (v : Option Addr) : GScript :=
  { s with inputs :=
      (s.inputs.filter (fun e => !(decide (e.1 = a)))) ++
      (match v with | some x => [(a, x)] | none => []) }

/-- `plug.outputs()`: the destination addresses currently connected to
the given source. -/
def outputsOf (s : GScript) (a : Addr) : List Addr :=
  (s.inputs.filter (fun e => e.2 = a)).map (·.1)

/-- One entry of the dictionary built by `get_node_connections`
(lib.py:582-635): the plug's path relative to the node, the external
plugs it reads from (`'in'`, at most one), and the external plugs that
read from it (`'out'`). -/
structure ConnEntry where
  src : List String
  ins : List Addr
  outs : List Addr
deriving DecidableEq

/-- The entry `get_node_connections` builds for one plug of the node, or
`none` when the entry is skipped (non-serialisable plug, or no external
connection at all). -/
def mkConnEntry (s : GScript) (n : GNode) (p : List String) : Option ConnEntry :=
  match findPlug p n.plugs with
  | none => none
  | some t =>
    if !t.ser then none
    else
      let theInput := getInput s ⟨n.nid, p⟩
      let outs := outputsOf s ⟨n.nid, p⟩
      let insL := match theInput with
        | some i => if i.node = n.nid then [] else [i]
        | none => []
      let outsL := outs.filter (fun o => o.node ≠ n.nid)
      if insL = [] ∧ outsL = [] then none
      else some ⟨p, insL, outsL⟩

/-- `get_node_connections(node)` (lib.py:582-635) with the default
`include_non_serializable=False`: one entry per plug of the node that
has an external input or external outputs. -/
def get_node_connections (s : GScript) (n : GNode) : List ConnEntry :=
  (get_all_plugs n.plugs).filterMap (mkConnEntry s n)

/-- The connection-rewiring step of `replace_node` for one dictionary
entry (lib.py:471-484): resolve the same relative path on the new node;
if it exists, give it the old plug's external input and repoint every
external reader at it; if it does not exist, the `'in'` loop skips and
the `'out'` loop disconnects every external reader
(`plug.setInput(None)`). -/
def rewireStep (newN : GNode) (s : GScript) (en : ConnEntry) : GScript :=
  match findPlug en.src newN.plugs with
  | some _ =>
    let s1 := en.ins.foldl (fun acc i => setInput acc ⟨newN.nid, en.src⟩ (some i)) s
    en.outs.foldl (fun acc o => setInput acc o (some ⟨newN.nid, en.src⟩)) s1
  | none =>
    en.outs.foldl (fun acc o => setInput acc o none) s

/-- The `plug_data` collection of `replace_node` (lib.py:452-466): the
path and current value of every plug of the old node whose name is not
ignored (`ignore_plug_names + ["globals"]`), that is serialisable and
whose `getValue()` succeeds. -/
def plugData (old : GNode) (ignorePlugNames : List String) :
    List (List String × PValue) :=
  (get_all_plugs old.plugs).filterMap (fun p =>
    match findPlug p old.plugs with
    | none => none
    | some t =>
      if (ignorePlugNames ++ ["globals"]).contains ((p.getLast?).getD "") then none
      else if !t.ser then none
      else match t.value with
        | none => none
        | some v => some (p, v))

/-- Set the value of the plug at `path` if it is serialisable and the
types match (`target_plug.setValue(value)` under its try/except and the
serialisable check, lib.py:502-510); otherwise leave everything
unchanged. -/
def setValueAt : List String → PValue → List (String × PlugTree) →
    List (String × PlugTree)
  | [], _, plugs => plugs
  | [k], v, plugs =>
    plugs.map (fun c =>
      if c.1 = k then
        match c.2 with
        | PlugTree.mk ser oldv d cs =>
          if ser then
            match oldv with
            | some ov =>
              (match ov, v with
               | PValue.str _, PValue.str s => (c.1, PlugTree.mk ser (some (PValue.str s)) d cs)
               | PValue.bool _, PValue.bool b => (c.1, PlugTree.mk ser (some (PValue.bool b)) d cs)
               | PValue.float _, PValue.float f => (c.1, PlugTree.mk ser (some (PValue.float f)) d cs)
               | PValue.int _, PValue.int n => (c.1, PlugTree.mk ser (some (PValue.int n)) d cs)
               | _, _ => c)
            | none => c
          else c
      else c)
  | k :: rest, v, plugs =>
    plugs.map (fun c =>
      if c.1 = k then
        match c.2 with
        | PlugTree.mk ser ov d cs => (c.1, PlugTree.mk ser ov d (setValueAt rest v cs))
      else c)

/-- `copy_plug(plug, destination_node)` (lib.py:526-551): create a fresh
plug of the old plug's type, name, default value and flags under the
same parent path of the destination node; the current value and the
children of the old plug are not copied, and a missing parent path
makes the whole operation a logged no-op (the exception handler). -/
def addPlugAt : List String → (String × PlugTree) → List (String × PlugTree) →
    List (String × PlugTree)
  | [], entry, plugs => plugs ++ [entry]
  | k :: rest, entry, plugs =>
    plugs.map (fun c =>
      if c.1 = k then
        match c.2 with
        | PlugTree.mk ser ov d cs => (c.1, PlugTree.mk ser ov d (addPlugAt rest entry cs))
      else c)

/-- Whether the parent path exists (the `new_plug_parent` walk of
`copy_plug`). -/
def parentExists : List String → List (String × PlugTree) → Bool
  | [], _ => true
  | k :: rest, plugs =>
    match plugs.find? (fun c => c.1 = k) with
    | none => false
    | some c => parentExists rest c.2.children

/-- The value-restoring phase of `replace_node` (lib.py:486-510) for one
`plug_data` entry, acting on the new node's plug list: if the path is
missing on the new node, `copy_plug` adds a fresh plug with the old
plug's name, default value and flags; otherwise the value is set
best-effort. -/
def valueStep (old : GNode) (plugs : List (String × PlugTree))
    (pv : List String × PValue) : List (String × PlugTree) :=
  match findPlug pv.1 plugs with
  | some _ => setValueAt pv.1 pv.2 plugs
  | none =>
    match findPlug pv.1 old.plugs with
    | none => plugs
    | some t =>
      let parent := pv.1.dropLast
      let pname := (pv.1.getLast?).getD ""
      if parentExists parent plugs then
        addPlugAt parent (pname, PlugTree.mk t.ser t.dflt t.dflt []) plugs
      else plugs

/-- `replace_node(old_node, new_node, ignore_plug_names, rename=True)`
(lib.py:451-523): store the old node's plug values, rewire its external
connections onto the same relative paths of the new node, replay the
values best-effort, remove the old node from the script (severing the
connections that still mention its plugs) and give the new node the old
node's name.  The final upstream `enabled` toggle restores each value it
touches and leaves this state unchanged. -/
def replace_node (s : GScript) (old newN : GNode) (ignorePlugNames : List String) :
    GScript :=
  let pdata := plugData old ignorePlugNames
  let conns := get_node_connections s old
  let s1 := conns.foldl (rewireStep newN) s
  let newPlugs := pdata.foldl (valueStep old) newN.plugs
  let nodes1 := s1.nodes.map (fun m =>
    if m.nid = newN.nid then { m with plugs := newPlugs, name := old.name } else m)
  { nodes := nodes1.filter (fun m => m.nid ≠ old.nid),
    inputs := s1.inputs.filter (fun e => e.1.node ≠ old.nid ∧ e.2.node ≠ old.nid) }

/- Auxiliary observations about the rewiring loop of `replace_node`,
used to reason about the fold over the connection dictionary. -/

/-- The last write (if any) the rewiring step for one connection entry
performs on the input of plug `x`: the `'out'` loop repoints every
external reader (or disconnects it when the path is missing on the new
node), after the `'in'` loop has fed the new node's plug. -/
def entryWrites (newN : GNode) (en : ConnEntry) (x : Addr) : Option (Option Addr) :=
  match findPlug en.src newN.plugs with
  | some _ =>
    if x ∈ en.outs then some (some ⟨newN.nid, en.src⟩)
    else if x = ⟨newN.nid, en.src⟩ then (en.ins.getLast?).map some
    else none
  | none =>
    if x ∈ en.outs then some none else none

/-- The last write performed on the input of plug `x` over a whole list
of connection entries. -/
def lastWrite (newN : GNode) (L : List ConnEntry) (x : Addr) : Option (Option Addr) :=
  L.foldl (fun acc en =>
    match entryWrites newN en x with
    | some v => some v
    | none => acc) none

/- ===================================================================
   Helper lemmas: compound-plug child lookup and replacement
   =================================================================== -/

theorem lookupKey_setKey (u : List (String × PValue)) (k k' : String) (v : PValue) :
    lookupKey (setKey u k v) k' = if k' = k then some v else lookupKey u k' := by
  induction u with
  | nil =>
    simp only [setKey, lookupKey]
    by_cases h : k' = k
    · subst h; simp
    · rw [if_neg (fun hc => h hc.symm), if_neg h]
  | cons kv rest ih =>
    simp only [setKey]
    by_cases hk : kv.1 = k
    · rw [if_pos hk]
      simp only [lookupKey]
      by_cases h : k' = k
      · subst h; simp
      · rw [if_neg (fun hc : k = k' => h hc.symm), if_neg h,
          if_neg (fun hc : kv.1 = k' => h ((hk ▸ hc : k = k').symm))]
    · rw [if_neg hk]
      simp only [lookupKey]
      by_cases h2 : kv.1 = k'
      · have hne : ¬ k' = k := fun hc => hk (h2.trans hc)
        rw [if_pos h2, if_neg hne, if_pos h2]
      · rw [if_neg h2, if_neg h2, ih]

theorem lookupKey_imprintStep_ne (u : List (String × PValue)) (kv : String × DValue)
    (k' : String) (h : k' ≠ kv.1) :
    lookupKey (imprintStep u kv) k' = lookupKey u k' := by
  unfold imprintStep
  cases hl : lookupKey u kv.1 with
  | none => simp [lookupKey_setKey, h]
  | some old =>
    cases ht : trySetValue old (dvalAsStored kv.2) <;>
      simp [hl, ht, lookupKey_setKey, h]

theorem lookupKey_imprintStep_str (u : List (String × PValue)) (k : String) (s : String) :
    lookupKey (imprintStep u (k, DValue.str s)) k = some (PValue.str s) := by
  unfold imprintStep
  cases hl : lookupKey u k with
  | none => simp [hl, dvalAsStored, freshPlug, lookupKey_setKey]
  | some old =>
    cases old <;> simp [hl, dvalAsStored, trySetValue, freshPlug, lookupKey_setKey]

/- ===================================================================
   Claim C5 - open_workfile error handling
   =================================================================== -/

/-- C5: for a filepath that does not exist, `GafferHost.open_workfile`
raises RuntimeError and leaves the root script unchanged; for an
existing filepath it sets the script's `fileName` plug to the filepath,
loads the script, and returns the filepath. -/
theorem open_workfile_spec (pathExists : String → Bool)
    (onVars : List (String × String) → List (String × String)) (s : Script)
    (fpMissing fpThere : String)
    (hm : pathExists fpMissing = false) (ht : pathExists fpThere = true) :
    open_workfile pathExists onVars s fpMissing =
      (Except.error ("File does not exist: " ++ fpMissing), s)
    ∧ (open_workfile pathExists onVars s fpThere).1 = Except.ok fpThere
    ∧ ((open_workfile pathExists onVars s fpThere).2).fileName = fpThere
    ∧ ((open_workfile pathExists onVars s fpThere).2).loadedFrom = some fpThere := by
  refine ⟨?_, ?_, ?_, ?_⟩ <;> simp [open_workfile, hm, ht]

/-- Witness for C5 at a concrete filesystem, script and pair of paths. -/
theorem open_workfile_spec_witness :
    open_workfile (fun p => p == "/work/a.gfr") id
        ⟨"ScriptNode", "", none, some [], [], []⟩ "/work/missing.gfr" =
      (Except.error ("File does not exist: " ++ "/work/missing.gfr"),
        ⟨"ScriptNode", "", none, some [], [], []⟩)
    ∧ (open_workfile (fun p => p == "/work/a.gfr") id
        ⟨"ScriptNode", "", none, some [], [], []⟩ "/work/a.gfr").1 = Except.ok "/work/a.gfr"
    ∧ ((open_workfile (fun p => p == "/work/a.gfr") id
        ⟨"ScriptNode", "", none, some [], [], []⟩ "/work/a.gfr").2).fileName = "/work/a.gfr"
    ∧ ((open_workfile (fun p => p == "/work/a.gfr") id
        ⟨"ScriptNode", "", none, some [], [], []⟩ "/work/a.gfr").2).loadedFrom =
        some "/work/a.gfr" :=
  open_workfile_spec (fun p => p == "/work/a.gfr") id
    ⟨"ScriptNode", "", none, some [], [], []⟩ "/work/missing.gfr" "/work/a.gfr"
    (by decide) (by decide)

/- ===================================================================
   Claim C6 - imprint is best-effort per key
   =================================================================== -/

/-- C6: when a key already exists under `node["user"]` and setting its
value raises (type mismatch), `imprint` replaces that plug with a
freshly created plug whose type matches the new value (StringPlug for
str, BoolPlug for bool, FloatPlug for float, IntPlug for int) and
continues processing the remaining keys. -/
theorem imprint_best_effort (user : List (String × PValue)) (k : String)
    (v : DValue) (rest : List (String × DValue)) (old : PValue)
    (hold : lookupKey user k = some old)
    (hfail : trySetValue old (dvalAsStored v) = none) :
    imprint user ((k, v) :: rest) =
      imprint (setKey user k (freshPlug (dvalAsStored v))) rest
    ∧ lookupKey (setKey user k (freshPlug (dvalAsStored v))) k =
        some (freshPlug (dvalAsStored v))
    ∧ plugTypeName (freshPlug (dvalAsStored v)) = dvalPlugType v := by
  refine ⟨?_, ?_, ?_⟩
  · simp only [imprint, List.foldl_cons]
    congr 1
    unfold imprintStep
    simp only [hold, hfail]
  · simp [lookupKey_setKey]
  · cases v <;> simp [dvalAsStored, freshPlug, plugTypeName, dvalPlugType]

/-- Witness for C6: an existing IntPlug under `user` receiving a string
value. -/
theorem imprint_best_effort_witness :
    imprint [("rep", PValue.int 3)] [("rep", DValue.str "x"), ("other", DValue.int 7)] =
      imprint (setKey [("rep", PValue.int 3)] "rep"
        (freshPlug (dvalAsStored (DValue.str "x")))) [("other", DValue.int 7)]
    ∧ lookupKey (setKey [("rep", PValue.int 3)] "rep"
        (freshPlug (dvalAsStored (DValue.str "x")))) "rep" =
        some (freshPlug (dvalAsStored (DValue.str "x")))
    ∧ plugTypeName (freshPlug (dvalAsStored (DValue.str "x"))) =
        dvalPlugType (DValue.str "x") :=
  imprint_best_effort [("rep", PValue.int 3)] "rep" (DValue.str "x")
    [("other", DValue.int 7)] (PValue.int 3) (by decide) (by decide)

/- ===================================================================
   Claim C8 - GafferLoadScene.switch is exactly update
   =================================================================== -/

/-- C8: `switch(container, representation)` is exactly
`update(container, representation)`; both set the container node's
`fileName` plug to the representation path with backslashes replaced by
forward slashes and set the node's user `representation` plug to the
representation id, changing nothing else on the node. -/
theorem switch_eq_update (g : ReprEntity → String) (c : Container)
    (r : ReprEntity) (n' : Node)
    (hupd : update_load_scene g c r = some n') :
    switch_load_scene g c r = update_load_scene g c r
    ∧ n' = { c.nodeRef with
             fileName := replaceBackslashes (g r),
             user := some (setKey (c.nodeRef.user.getD []) "representation"
                             (PValue.str r.reprId)) } := by
  refine ⟨rfl, ?_⟩
  unfold update_load_scene at hupd
  cases hu : c.nodeRef.user with
  | none => simp [hu] at hupd
  | some user =>
    simp only [hu] at hupd
    cases hl : lookupKey user "representation" with
    | none => simp [hl] at hupd
    | some old =>
      simp only [hl] at hupd
      cases ht : trySetValue old (DValue.str r.reprId) with
      | none => simp [ht] at hupd
      | some v =>
        have hv : v = PValue.str r.reprId := by
          cases old <;> simp [trySetValue] at ht
          exact ht.symm
        simp only [ht, Option.some.injEq] at hupd
        subst hupd
        simp [hv, hu]

/-- Witness for C8 on a concrete container node. -/
theorem switch_eq_update_witness :
    switch_load_scene (fun _ => "p\\q") ⟨PValue.str "s", PValue.str "i", PValue.str "n",
        PValue.str "ns", PValue.str "old", PValue.str "l", "Script.node",
        ⟨"node", some [("representation", PValue.str "old")], "f"⟩⟩ ⟨"newid"⟩ =
      update_load_scene (fun _ => "p\\q") ⟨PValue.str "s", PValue.str "i", PValue.str "n",
        PValue.str "ns", PValue.str "old", PValue.str "l", "Script.node",
        ⟨"node", some [("representation", PValue.str "old")], "f"⟩⟩ ⟨"newid"⟩
    ∧ (⟨"node", some [("representation", PValue.str "newid")], "p/q"⟩ : Node) =
      { (⟨"node", some [("representation", PValue.str "old")], "f"⟩ : Node) with
        fileName := replaceBackslashes ((fun (_ : ReprEntity) => "p\\q") ⟨"newid"⟩),
        user := some (setKey ((⟨"node", some [("representation", PValue.str "old")], "f"⟩ : Node).user.getD [])
                        "representation" (PValue.str (ReprEntity.reprId ⟨"newid"⟩))) } :=
  switch_eq_update (fun _ => "p\\q")
    ⟨PValue.str "s", PValue.str "i", PValue.str "n", PValue.str "ns", PValue.str "old",
      PValue.str "l", "Script.node",
      ⟨"node", some [("representation", PValue.str "old")], "f"⟩⟩ ⟨"newid"⟩
    ⟨"node", some [("representation", PValue.str "newid")], "p/q"⟩ (by decide)

/- ===================================================================
   Claim C3 - context data round-trip through the reserved key
   =================================================================== -/

/-- C3: for any data whose serialisation parses back to itself (the
contract of the external `json` module), `get_context_data` after
`update_context_data(data, changes)` returns that data - the JSON blob
round-trips through the single StringPlug stored under the reserved
`ayon_context` key of the script's user data; and while the reserved
key has never been set, `get_context_data` returns the empty dict. -/
theorem context_data_roundtrip (dumps : Json → String) (loads : String → Json)
    (s s' : Script) (u : List (String × PValue)) (d : Json)
    (hu : s.user = some u)
    (hupd : update_context_data dumps s d = some s')
    (hround : loads (dumps d) = d) :
    get_context_data loads s' = some d
    ∧ (lookupKey u ayonContextPlug = none →
        get_context_data loads s = some (Json.jobj [])) := by
  constructor
  · unfold update_context_data at hupd
    simp only [hu] at hupd
    cases hupd
    simp [get_context_data, lookupKey_setKey, hround]
  · intro hnone
    simp [get_context_data, hu, hnone]

/-- Witness for C3 with a concrete (degenerate but round-tripping on the
chosen data) serialiser pair and a fresh script. -/
theorem context_data_roundtrip_witness :
    get_context_data (fun _ => Json.jobj [])
      ⟨"ScriptNode", "", none, some [(ayonContextPlug, PValue.str "")], [], []⟩ =
      some (Json.jobj [])
    ∧ (lookupKey [] ayonContextPlug = none →
        get_context_data (fun _ => Json.jobj [])
          ⟨"ScriptNode", "", none, some [], [], []⟩ = some (Json.jobj [])) :=
  context_data_roundtrip (fun _ => "") (fun _ => Json.jobj [])
    ⟨"ScriptNode", "", none, some [], [], []⟩
    ⟨"ScriptNode", "", none, some [(ayonContextPlug, PValue.str "")], [], []⟩
    [] (Json.jobj []) rfl rfl rfl

/- ===================================================================
   Claim C1 - get_containers recognition and contents
   =================================================================== -/

/-- C1: a direct child node of the root script is represented among the
yielded containers exactly when it has a `user` compound with all six
required keys and its `user["id"]` value is `AYON_CONTAINER_ID` or
`AVALON_CONTAINER_ID`; and the container yielded for such a node maps
each required key to that plug's value and carries the node's full name
as `objectName` and the node itself as `_node` (`mkContainer`). -/
theorem get_containers_spec (s : Script) (n : Node) (h : n ∈ s.nodes) :
    ((∃ c ∈ get_containers s, c.nodeRef = n) ↔ isContainerNode n = true)
    ∧ ∀ c ∈ get_containers s, c.nodeRef = n → c = mkContainer s n := by
  constructor
  · constructor
    · rintro ⟨c, hc, hcn⟩
      simp only [get_containers, List.mem_filterMap] at hc
      obtain ⟨m, _, hm2⟩ := hc
      by_cases hcm : isContainerNode m = true
      · simp only [hcm, if_true, Option.some.injEq] at hm2
        have hrm : c.nodeRef = m := by rw [← hm2]; rfl
        exact (hrm.symm.trans hcn) ▸ hcm
      · simp [hcm] at hm2
    · intro hcn
      exact ⟨mkContainer s n, by
        simp only [get_containers, List.mem_filterMap]
        exact ⟨n, h, by simp [hcn]⟩, rfl⟩
  · intro c hc hcn
    simp only [get_containers, List.mem_filterMap] at hc
    obtain ⟨m, _, hm2⟩ := hc
    by_cases hcm : isContainerNode m = true
    · simp only [hcm, if_true, Option.some.injEq] at hm2
      have href : c.nodeRef = m := by rw [← hm2]; rfl
      rw [← hm2, href.symm.trans hcn]
    · simp [hcm] at hm2

/-- Witness for C1 on a one-node script whose node qualifies. -/
theorem get_containers_spec_witness :
    ((∃ c ∈ get_containers ⟨"ScriptNode", "", none, none, [],
        [⟨"loaded1", some [("schema", PValue.str "openpype:container-2.0"),
          ("id", PValue.str AYON_CONTAINER_ID), ("name", PValue.str "n"),
          ("namespace", PValue.str "ns"), ("representation", PValue.str "r"),
          ("loader", PValue.str "L")], "f"⟩]⟩,
        c.nodeRef = ⟨"loaded1", some [("schema", PValue.str "openpype:container-2.0"),
          ("id", PValue.str AYON_CONTAINER_ID), ("name", PValue.str "n"),
          ("namespace", PValue.str "ns"), ("representation", PValue.str "r"),
          ("loader", PValue.str "L")], "f"⟩) ↔
      isContainerNode ⟨"loaded1", some [("schema", PValue.str "openpype:container-2.0"),
        ("id", PValue.str AYON_CONTAINER_ID), ("name", PValue.str "n"),
        ("namespace", PValue.str "ns"), ("representation", PValue.str "r"),
        ("loader", PValue.str "L")], "f"⟩ = true)
    ∧ ∀ c ∈ get_containers ⟨"ScriptNode", "", none, none, [],
        [⟨"loaded1", some [("schema", PValue.str "openpype:container-2.0"),
          ("id", PValue.str AYON_CONTAINER_ID), ("name", PValue.str "n"),
          ("namespace", PValue.str "ns"), ("representation", PValue.str "r"),
          ("loader", PValue.str "L")], "f"⟩]⟩,
        c.nodeRef = ⟨"loaded1", some [("schema", PValue.str "openpype:container-2.0"),
          ("id", PValue.str AYON_CONTAINER_ID), ("name", PValue.str "n"),
          ("namespace", PValue.str "ns"), ("representation", PValue.str "r"),
          ("loader", PValue.str "L")], "f"⟩ →
        c = mkContainer ⟨"ScriptNode", "", none, none, [],
          [⟨"loaded1", some [("schema", PValue.str "openpype:container-2.0"),
            ("id", PValue.str AYON_CONTAINER_ID), ("name", PValue.str "n"),
            ("namespace", PValue.str "ns"), ("representation", PValue.str "r"),
            ("loader", PValue.str "L")], "f"⟩]⟩
          ⟨"loaded1", some [("schema", PValue.str "openpype:container-2.0"),
            ("id", PValue.str AYON_CONTAINER_ID), ("name", PValue.str "n"),
            ("namespace", PValue.str "ns"), ("representation", PValue.str "r"),
            ("loader", PValue.str "L")], "f"⟩ :=
  get_containers_spec _ _ (by decide)

/- ===================================================================
   Claim C2 - imprint_container makes the node a tracked container
   =================================================================== -/

/-- C2: after `imprint_container(node, name, namespace, context, loader)`
on a node with a `user` compound that is a child of the root script, the
node is yielded by `get_containers`, and its container has schema
`openpype:container-2.0`, id `AYON_CONTAINER_ID`, the given name,
namespace and loader, and representation `context["representation"]["id"]`. -/
theorem imprint_container_in_get_containers (s : Script) (n n' : Node)
    (nm nsp ld : String) (ctx : Ctx)
    (himp : imprint_container n nm nsp ctx ld = some n')
    (hmem : n' ∈ s.nodes) :
    ∃ c ∈ get_containers s, c.nodeRef = n'
      ∧ c.schema = PValue.str "openpype:container-2.0"
      ∧ c.id = PValue.str AYON_CONTAINER_ID
      ∧ c.cname = PValue.str nm
      ∧ c.nspace = PValue.str nsp
      ∧ c.loader = PValue.str ld
      ∧ c.representation = PValue.str ctx.representationId := by
  unfold imprint_container at himp
  cases hu : n.user with
  | none => simp [hu] at himp
  | some u =>
    simp only [hu, Option.some.injEq] at himp
    set U : List (String × PValue) := imprint u
      [("schema", DValue.str "openpype:container-2.0"),
       ("id", DValue.str AYON_CONTAINER_ID),
       ("name", DValue.str nm),
       ("namespace", DValue.str nsp),
       ("loader", DValue.str ld),
       ("representation", DValue.str ctx.representationId)] with hUdef
    have hU : n'.user = some U := by rw [← himp]
    have hUfold : U = imprintStep (imprintStep (imprintStep (imprintStep (imprintStep
        (imprintStep u ("schema", DValue.str "openpype:container-2.0"))
        ("id", DValue.str AYON_CONTAINER_ID)) ("name", DValue.str nm))
        ("namespace", DValue.str nsp)) ("loader", DValue.str ld))
        ("representation", DValue.str ctx.representationId) := by
      rw [hUdef]; rfl
    have l1 : lookupKey U "schema" = some (PValue.str "openpype:container-2.0") := by
      rw [hUfold,
        lookupKey_imprintStep_ne _ _ _ (by simp),
        lookupKey_imprintStep_ne _ _ _ (by simp),
        lookupKey_imprintStep_ne _ _ _ (by simp),
        lookupKey_imprintStep_ne _ _ _ (by simp),
        lookupKey_imprintStep_ne _ _ _ (by simp),
        lookupKey_imprintStep_str]
    have l2 : lookupKey U "id" = some (PValue.str AYON_CONTAINER_ID) := by
      rw [hUfold,
        lookupKey_imprintStep_ne _ _ _ (by simp),
        lookupKey_imprintStep_ne _ _ _ (by simp),
        lookupKey_imprintStep_ne _ _ _ (by simp),
        lookupKey_imprintStep_ne _ _ _ (by simp),
        lookupKey_imprintStep_str]
    have l3 : lookupKey U "name" = some (PValue.str nm) := by
      rw [hUfold,
        lookupKey_imprintStep_ne _ _ _ (by simp),
        lookupKey_imprintStep_ne _ _ _ (by simp),
        lookupKey_imprintStep_ne _ _ _ (by simp),
        lookupKey_imprintStep_str]
    have l4 : lookupKey U "namespace" = some (PValue.str nsp) := by
      rw [hUfold,
        lookupKey_imprintStep_ne _ _ _ (by simp),
        lookupKey_imprintStep_ne _ _ _ (by simp),
        lookupKey_imprintStep_str]
    have l5 : lookupKey U "loader" = some (PValue.str ld) := by
      rw [hUfold,
        lookupKey_imprintStep_ne _ _ _ (by simp),
        lookupKey_imprintStep_str]
    have l6 : lookupKey U "representation" = some (PValue.str ctx.representationId) := by
      rw [hUfold, lookupKey_imprintStep_str]
    have hcn : isContainerNode n' = true := by
      simp only [isContainerNode, hU, requiredKeys, List.all_cons, List.all_nil,
        l1, l2, l3, l4, l5, l6]
      simp [AYON_CONTAINER_ID]
    refine ⟨mkContainer s n', ?_, rfl, ?_, ?_, ?_, ?_, ?_, ?_⟩
    · simp only [get_containers, List.mem_filterMap]
      exact ⟨n', hmem, by simp [hcn]⟩
    all_goals simp [mkContainer, getKeyD, hU, l1, l2, l3, l4, l5, l6]

/-- Witness for C2: a freshly imprinted SceneReader-style node inside a
one-node script. -/
theorem imprint_container_in_get_containers_witness :
    ∃ c ∈ get_containers ⟨"ScriptNode", "", none, none, [],
        [⟨"cache1", some (imprint []
          [("schema", DValue.str "openpype:container-2.0"),
           ("id", DValue.str AYON_CONTAINER_ID),
           ("name", DValue.str "cache"),
           ("namespace", DValue.str "shotA"),
           ("loader", DValue.str "GafferLoadScene"),
           ("representation", DValue.str "repr42")]), "f"⟩]⟩,
      c.nodeRef = ⟨"cache1", some (imprint []
          [("schema", DValue.str "openpype:container-2.0"),
           ("id", DValue.str AYON_CONTAINER_ID),
           ("name", DValue.str "cache"),
           ("namespace", DValue.str "shotA"),
           ("loader", DValue.str "GafferLoadScene"),
           ("representation", DValue.str "repr42")]), "f"⟩
      ∧ c.schema = PValue.str "openpype:container-2.0"
      ∧ c.id = PValue.str AYON_CONTAINER_ID
      ∧ c.cname = PValue.str "cache"
      ∧ c.nspace = PValue.str "shotA"
      ∧ c.loader = PValue.str "GafferLoadScene"
      ∧ c.representation = PValue.str (Ctx.representationId ⟨"repr42"⟩) :=
  imprint_container_in_get_containers _
    ⟨"cache1", some [], "f"⟩ _ "cache" "shotA" "GafferLoadScene" ⟨"repr42"⟩
    (by simp [imprint_container]) (by simp)

/- ===================================================================
   Claim C4 - get_next_valid_name
   =================================================================== -/

/-- Counterexample to C4: with template `node_##` and existing children
`node_19` and `node_10`, the lexicographically greatest matching name is
`node_19`, whose last digit is `9`, so the function returns `node_10` -
which is the name of an existing child matching the head/number/tail
pattern.  The generated name is therefore not unique. -/
theorem get_next_valid_name_counterexample :
    get_next_valid_name ("node_##".data) ["node_19".data, "node_10".data] =
      some ("node_10".data)
    ∧ ("node_10".data) ∈ ["node_19".data, "node_10".data]
    ∧ headTailMatch ("node_".data) [] ("node_10".data) = true := by
  refine ⟨by decide, by decide, by decide⟩

/-- C4 as amended: when no existing child matches the `head.*tail`
pattern the number 1 is used, zero-padded to the length of the `#`
block; when matching children exist, the number used is one plus the
value of the last digit of the lexicographically greatest matching name
(so the result can coincide with an existing child). -/
theorem get_next_valid_name_amended (template head padding tail : List Char)
    (childNames : List (List Char))
    (hp : findHashBlock template = some (head, padding, tail)) :
    (childNames.filter (fun nm => headTailMatch head tail nm) = [] →
      get_next_valid_name template childNames =
        some (head ++ zfill padding.length (natChars 1) ++ tail))
    ∧ (∀ x xs, childNames.filter (fun nm => headTailMatch head tail nm) = x :: xs →
        ∀ d, lastDigit (listMaxLex x xs) = some d →
          get_next_valid_name template childNames =
            some (head ++ zfill padding.length (natChars (digitVal d + 1)) ++ tail)) := by
  constructor
  · intro hfe
    unfold get_next_valid_name
    rw [hp]
    simp only [hfe]
  · intro x xs hfe d hd
    unfold get_next_valid_name
    rw [hp]
    simp only [hfe, hd]

/-- Witness for the amended C4 at the counterexample's concrete input. -/
theorem get_next_valid_name_amended_witness :
    ((["node_19".data, "node_10".data].filter
        (fun nm => headTailMatch ("node_".data) [] nm) = [] →
      get_next_valid_name ("node_##".data) ["node_19".data, "node_10".data] =
        some ("node_".data ++ zfill ("##".data).length (natChars 1) ++ []))
    ∧ (∀ x xs, ["node_19".data, "node_10".data].filter
          (fun nm => headTailMatch ("node_".data) [] nm) = x :: xs →
        ∀ d, lastDigit (listMaxLex x xs) = some d →
          get_next_valid_name ("node_##".data) ["node_19".data, "node_10".data] =
            some ("node_".data ++ zfill ("##".data).length (natChars (digitVal d + 1)) ++ []))) :=
  get_next_valid_name_amended ("node_##".data) ("node_".data) ("##".data) []
    ["node_19".data, "node_10".data] (by decide)

/- ===================================================================
   Claim C10 - append_to_csv_plug
   =================================================================== -/

theorem pySplit_ne_nil (sep : Char) (s : List Char) : pySplit sep s ≠ [] := by
  cases s with
  | nil => simp [pySplit]
  | cons c rest =>
    simp only [pySplit]
    by_cases h : c = sep
    · simp [h]
    · simp only [h, if_false]
      cases pySplit sep rest <;> simp

theorem pySplit_cons_of_head (sep : Char) (s : List Char) :
    ∃ x t, pySplit sep s = x :: t := by
  cases hr : pySplit sep s with
  | nil => exact absurd hr (pySplit_ne_nil sep s)
  | cons x t => exact ⟨x, t, rfl⟩

theorem pyJoin_cons_cons (sep c : Char) (h : List Char) (t : List (List Char)) :
    pyJoin sep ((c :: h) :: t) = c :: pyJoin sep (h :: t) := by
  cases t <;> simp [pyJoin]

theorem pyJoin_pySplit (sep : Char) (s : List Char) :
    pyJoin sep (pySplit sep s) = s := by
  induction s with
  | nil => simp [pySplit, pyJoin]
  | cons c rest ih =>
    obtain ⟨x, t, hxt⟩ := pySplit_cons_of_head sep rest
    simp only [pySplit, hxt]
    rw [hxt] at ih
    by_cases h : c = sep
    · rw [if_pos h]
      simp [pyJoin, ih, h]
    · rw [if_neg h]
      show pyJoin sep ((c :: x) :: t) = c :: rest
      rw [pyJoin_cons_cons, ih]

theorem mem_pySplit_no_sep (sep : Char) (s x : List Char)
    (hx : x ∈ pySplit sep s) : sep ∉ x := by
  induction s generalizing x with
  | nil =>
    simp [pySplit] at hx
    simp [hx]
  | cons c rest ih =>
    obtain ⟨y, t, hyt⟩ := pySplit_cons_of_head sep rest
    simp only [pySplit, hyt] at hx
    by_cases h : c = sep
    · rw [if_pos h] at hx
      rcases List.mem_cons.mp hx with hx1 | hx1
      · simp [hx1]
      · exact ih x (hyt ▸ hx1)
    · rw [if_neg h] at hx
      have hx' : x ∈ (c :: y) :: t := hx
      rcases List.mem_cons.mp hx' with hx1 | hx1
      · subst hx1
        intro hmem
        rcases List.mem_cons.mp hmem with hc | hc
        · exact h hc.symm
        · exact ih y (hyt ▸ List.mem_cons_self y t) hc
      · exact ih x (hyt ▸ List.mem_cons_of_mem y hx1)

theorem pySplit_no_sep (sep : Char) (x : List Char) (hx : sep ∉ x) :
    pySplit sep x = [x] := by
  induction x with
  | nil => simp [pySplit]
  | cons c rest ih =>
    have hc : ¬ c = sep := fun hc => hx (hc ▸ List.mem_cons_self c rest)
    have hr : sep ∉ rest := fun hm => hx (List.mem_cons_of_mem c hm)
    simp only [pySplit, ih hr]
    rw [if_neg hc]

theorem pySplit_append_sep (sep : Char) (x r : List Char) (hx : sep ∉ x) :
    pySplit sep (x ++ sep :: r) = x :: pySplit sep r := by
  induction x with
  | nil => simp [pySplit]
  | cons c rest ih =>
    have hc : ¬ c = sep := fun hc => hx (hc ▸ List.mem_cons_self c rest)
    have hr : sep ∉ rest := fun hm => hx (List.mem_cons_of_mem c hm)
    rw [List.cons_append]
    simp only [pySplit, ih hr]
    rw [if_neg hc]

theorem pySplit_pyJoin (sep : Char) (xs : List (List Char)) (hne : xs ≠ [])
    (hall : ∀ x ∈ xs, sep ∉ x) : pySplit sep (pyJoin sep xs) = xs := by
  induction xs with
  | nil => exact absurd rfl hne
  | cons x t ih =>
    cases t with
    | nil =>
      simp only [pyJoin]
      exact pySplit_no_sep sep x (hall x (List.mem_cons_self x []))
    | cons y t' =>
      have hx : sep ∉ x := hall x (List.mem_cons_self x _)
      have hrest : ∀ z ∈ y :: t', sep ∉ z := fun z hz =>
        hall z (List.mem_cons_of_mem x hz)
      simp only [pyJoin]
      rw [pySplit_append_sep sep x (pyJoin sep (y :: t')) hx,
        ih (by simp) hrest]

theorem pyJoin_append_single (sep : Char) (xs : List (List Char)) (v : List Char)
    (hne : xs ≠ []) : pyJoin sep (xs ++ [v]) = pyJoin sep xs ++ sep :: v := by
  induction xs with
  | nil => exact absurd rfl hne
  | cons x t ih =>
    cases t with
    | nil => simp [pyJoin]
    | cons y t' =>
      have step : (x :: y :: t') ++ [v] = x :: ((y :: t') ++ [v]) := rfl
      rw [step]
      have h1 : pyJoin sep (x :: ((y :: t') ++ [v])) =
          x ++ sep :: pyJoin sep ((y :: t') ++ [v]) := by
        cases h2 : (y :: t') ++ [v] with
        | nil => simp at h2
        | cons a b => simp [pyJoin]
      rw [h1, ih (by simp)]
      have h3 : pyJoin sep (x :: y :: t') = x ++ sep :: pyJoin sep (y :: t') := rfl
      rw [h3]
      simp [List.append_assoc]

/-- Counterexample to C10: adding a value that itself contains a comma is
not idempotent - after the first call the value is embedded in the
comma-joined string and is never again equal to any element of the
re-split list, so a second call appends it again. -/
theorem append_to_csv_plug_counterexample :
    append_to_csv_plug (append_to_csv_plug [] ("a,b".data) false) ("a,b".data) false ≠
      append_to_csv_plug [] ("a,b".data) false := by decide

/-- C10 as amended: for a value containing no comma, `append_to_csv_plug`
with `allow_duplicates=False` is idempotent - a value already present as
an element leaves the plug value equal to the join of its split (the
original string), and a second call with the same value changes nothing;
with `allow_duplicates=True` the value is always appended as a new
trailing element. -/
theorem append_to_csv_plug_amended (cur v : List Char) (hv : ',' ∉ v) :
    (v ∈ pySplit ',' cur → append_to_csv_plug cur v false = cur)
    ∧ append_to_csv_plug (append_to_csv_plug cur v false) v false =
        append_to_csv_plug cur v false
    ∧ append_to_csv_plug cur v true = cur ++ ',' :: v := by
  have part1 : ∀ c' : List Char, v ∈ pySplit ',' c' →
      append_to_csv_plug c' v false = c' := by
    intro c' hm
    unfold append_to_csv_plug
    simp only [Bool.false_eq_true, if_false]
    rw [if_pos (List.elem_iff.mpr hm), pyJoin_pySplit]
  refine ⟨part1 cur, ?_, ?_⟩
  · by_cases hm : v ∈ pySplit ',' cur
    · simp only [part1 cur hm]
    · have hfirst : append_to_csv_plug cur v false =
          pyJoin ',' (pySplit ',' cur ++ [v]) := by
        unfold append_to_csv_plug
        simp only [Bool.false_eq_true, if_false]
        rw [if_neg (fun hc : (pySplit ',' cur).contains v = true =>
          hm (List.elem_iff.mp hc))]
      have hsplit : pySplit ',' (append_to_csv_plug cur v false) =
          pySplit ',' cur ++ [v] := by
        rw [hfirst]
        apply pySplit_pyJoin
        · simp
        · intro x hx
          rcases List.mem_append.mp hx with hx1 | hx1
          · exact mem_pySplit_no_sep ',' cur x hx1
          · rw [List.mem_singleton.mp hx1]; exact hv
      exact part1 _ (by rw [hsplit]; simp)
  · unfold append_to_csv_plug
    simp only [if_true]
    rw [pyJoin_append_single ',' _ v (pySplit_ne_nil ',' cur), pyJoin_pySplit]

/-- Witness for the amended C10 on a concrete plug value. -/
theorem append_to_csv_plug_amended_witness :
    (("a".data) ∈ pySplit ',' ("x".data) →
      append_to_csv_plug ("x".data) ("a".data) false = "x".data)
    ∧ append_to_csv_plug (append_to_csv_plug ("x".data) ("a".data) false)
        ("a".data) false = append_to_csv_plug ("x".data) ("a".data) false
    ∧ append_to_csv_plug ("x".data) ("a".data) true = "x".data ++ ',' :: "a".data :=
  append_to_csv_plug_amended ("x".data) ("a".data) (by decide)

/- ===================================================================
   Claim C9 - traverse_scene breadth-first traversal
   =================================================================== -/

theorem sizeForest_append (a b : List (List Char × STree)) :
    sizeForest (a ++ b) = sizeForest a + sizeForest b := by
  induction a with
  | nil => simp [sizeForest]
  | cons hd tl ih =>
    obtain ⟨n, t⟩ := hd
    cases t with
    | mk cs => simp [sizeForest, ih]; omega

theorem sizeForest_childEntries (p : List Char) (t : STree) :
    sizeForest (childEntries p t) = sizeForest t.children := by
  cases t with
  | mk cs =>
    simp only [childEntries, STree.children]
    induction cs generalizing p with
    | nil => simp [sizeForest]
    | cons hd tl ih =>
      obtain ⟨n, t'⟩ := hd
      cases t' with
      | mk cs' =>
        simp only [List.map_cons, sizeForest]
        rw [ih]

theorem traverseQueue_nil : traverseQueue [] = [] := by
  simp [traverseQueue]

theorem traverseQueue_cons (p : List Char) (t : STree)
    (rest : List (List Char × STree)) :
    traverseQueue ((p, t) :: rest) =
      p :: traverseQueue (rest ++ childEntries p t) := by
  rw [traverseQueue]

theorem traverseQueue_round (a b : List (List Char × STree)) :
    traverseQueue (a ++ b) =
      forestLevel a ++ traverseQueue (b ++ forestChildren a) := by
  induction a generalizing b with
  | nil => simp [forestLevel, forestChildren]
  | cons hd tl ih =>
    obtain ⟨p, t⟩ := hd
    rw [List.cons_append, traverseQueue_cons, List.append_assoc]
    rw [ih (b ++ childEntries p t)]
    simp only [forestLevel, forestChildren, List.map_cons, List.flatMap_cons,
      List.cons_append, List.append_assoc]

theorem forestPathsAtDepth_zero (q : List (List Char × STree)) :
    forestPathsAtDepth 0 q = forestLevel q := by
  induction q with
  | nil => rfl
  | cons hd tl ih =>
    simp only [forestPathsAtDepth, forestLevel, List.map_cons, List.flatten_cons,
      pathsAtDepth] at ih ⊢
    rw [ih]
    rfl

theorem forestPathsAtDepth_succ (d : Nat) (q : List (List Char × STree)) :
    forestPathsAtDepth (d + 1) q = forestPathsAtDepth d (forestChildren q) := by
  induction q with
  | nil => rfl
  | cons hd tl ih =>
    obtain ⟨p, t⟩ := hd
    simp only [forestPathsAtDepth, forestChildren, List.map_cons, List.flatten_cons,
      List.flatMap_cons, pathsAtDepth, List.map_append, List.flatten_append] at ih ⊢
    rw [ih]
    congr 1
    simp [childEntries, List.map_map]
    rfl

theorem sizeForest_eq_length_add (q : List (List Char × STree)) :
    sizeForest q = q.length + sizeForest (forestChildren q) := by
  induction q with
  | nil => simp [sizeForest, forestChildren]
  | cons hd tl ih =>
    obtain ⟨p, t⟩ := hd
    cases t with
    | mk cs =>
      simp only [sizeForest, forestChildren, List.flatMap_cons, List.length_cons]
      rw [sizeForest_append, sizeForest_childEntries]
      simp only [STree.children]
      have := ih
      simp only [forestChildren] at this
      omega

theorem forestPathsAtDepth_nil (d : Nat) : forestPathsAtDepth d [] = [] := by
  simp [forestPathsAtDepth]

theorem forestPathsAtDepth_vanish (d : Nat) (q : List (List Char × STree))
    (h : sizeForest q ≤ d) : forestPathsAtDepth d q = [] := by
  induction d generalizing q with
  | zero =>
    cases q with
    | nil => rfl
    | cons hd tl =>
      obtain ⟨p, t⟩ := hd
      cases t with
      | mk cs => simp [sizeForest] at h
  | succ d ih =>
    cases q with
    | nil => rfl
    | cons hd tl =>
      rw [forestPathsAtDepth_succ]
      apply ih
      have hlen := sizeForest_eq_length_add (hd :: tl)
      have : (hd :: tl).length ≥ 1 := by simp
      omega

theorem traverseQueue_levels (N : Nat) (q : List (List Char × STree))
    (h : sizeForest q ≤ N) :
    traverseQueue q = ((List.range N).map (fun d => forestPathsAtDepth d q)).flatten := by
  induction N generalizing q with
  | zero =>
    cases q with
    | nil => simp [traverseQueue_nil]
    | cons hd tl =>
      obtain ⟨p, t⟩ := hd
      cases t with
      | mk cs => simp [sizeForest] at h
  | succ N ih =>
    cases q with
    | nil =>
      simp [traverseQueue_nil, forestPathsAtDepth_nil]
    | cons hd tl =>
      have hround := traverseQueue_round (hd :: tl) []
      simp only [List.append_nil, List.nil_append] at hround
      rw [hround]
      have hsz : sizeForest (forestChildren (hd :: tl)) ≤ N := by
        have hlen := sizeForest_eq_length_add (hd :: tl)
        have : (hd :: tl).length ≥ 1 := by simp
        omega
      rw [ih (forestChildren (hd :: tl)) hsz]
      rw [List.range_succ_eq_map]
      simp only [List.map_cons, List.flatten_cons, List.map_map]
      rw [forestPathsAtDepth_zero]
      congr 1
      congr 1
      apply List.map_congr_left
      intro d hd2
      simp only [Function.comp_apply]
      rw [forestPathsAtDepth_succ]

theorem pathsAtDepth_eq_render (d : Nat) (root : List Char) (t : STree) :
    pathsAtDepth d root t = (seqsAtDepth d t).map (renderPath root) := by
  induction d generalizing root t with
  | zero => simp [pathsAtDepth, seqsAtDepth, renderPath]
  | succ d ih =>
    cases t with
    | mk cs =>
      simp only [pathsAtDepth, seqsAtDepth, STree.children, List.map_flatten,
        List.map_map]
      congr 1
      apply List.map_congr_left
      intro c hc
      simp only [Function.comp_apply, List.map_map]
      rw [ih]
      rfl

theorem no_slash_append_eq (a1 b1 a2 b2 : List Char)
    (h1 : '/' ∉ a1) (h2 : '/' ∉ a2)
    (heq : a1 ++ '/' :: b1 = a2 ++ '/' :: b2) : a1 = a2 ∧ b1 = b2 := by
  induction a1 generalizing a2 with
  | nil =>
    cases a2 with
    | nil => simpa using heq
    | cons c2 t2 =>
      simp only [List.nil_append, List.cons_append, List.cons.injEq] at heq
      exact absurd (heq.1 ▸ List.mem_cons_self c2 t2) h2
  | cons c1 t1 ih =>
    cases a2 with
    | nil =>
      simp only [List.nil_append, List.cons_append, List.cons.injEq] at heq
      exact absurd (heq.1.symm ▸ List.mem_cons_self c1 t1) h1
    | cons c2 t2 =>
      simp only [List.cons_append, List.cons.injEq] at heq
      have h1' : '/' ∉ t1 := fun hm => h1 (List.mem_cons_of_mem c1 hm)
      have h2' : '/' ∉ t2 := fun hm => h2 (List.mem_cons_of_mem c2 hm)
      obtain ⟨ha, hb⟩ := ih t2 h1' h2' heq.2
      exact ⟨by rw [heq.1, ha], hb⟩

theorem childPath_inj (p q n m : List Char)
    (hn1 : n ≠ []) (hn2 : '/' ∉ n) (hm1 : m ≠ []) (hm2 : '/' ∉ m)
    (heq : childPath p n = childPath q m) :
    pyRstripSlash p = pyRstripSlash q ∧ n = m := by
  have hrev : n.reverse ++ '/' :: (pyRstripSlash p).reverse =
      m.reverse ++ '/' :: (pyRstripSlash q).reverse := by
    have e1 : (childPath p n).reverse = n.reverse ++ '/' :: (pyRstripSlash p).reverse := by
      simp [childPath]
    have e2 : (childPath q m).reverse = m.reverse ++ '/' :: (pyRstripSlash q).reverse := by
      simp [childPath]
    rw [← e1, ← e2, heq]
  have hn2' : '/' ∉ n.reverse := by simpa using hn2
  have hm2' : '/' ∉ m.reverse := by simpa using hm2
  obtain ⟨ha, hb⟩ := no_slash_append_eq _ _ _ _ hn2' hm2' hrev
  constructor
  · have := congrArg List.reverse hb
    simpa using this
  · have := congrArg List.reverse ha
    simpa using this

theorem pyRstripSlash_append_no_slash (x n : List Char)
    (hn1 : n ≠ []) (hn2 : '/' ∉ n) :
    pyRstripSlash (x ++ '/' :: n) = x ++ '/' :: n := by
  unfold pyRstripSlash
  cases hrev : n.reverse with
  | nil => exact absurd (by simpa using hrev) hn1
  | cons c cs =>
    have hc : c ∈ n := by
      have : c ∈ n.reverse := hrev ▸ List.mem_cons_self c cs
      simpa using this
    have hcne : ¬ c = '/' := fun hcc => hn2 (hcc ▸ hc)
    have h2 : n = cs.reverse ++ [c] := by
      rw [← List.reverse_reverse n, hrev]; simp
    subst h2
    have hx : (x ++ '/' :: (cs.reverse ++ [c])).reverse =
        c :: (cs ++ '/' :: x.reverse) := by
      simp
    rw [hx, List.dropWhile_cons_of_neg (by simpa using hcne)]
    simp

theorem pyRstripSlash_childPath (p n : List Char) (hn1 : n ≠ []) (hn2 : '/' ∉ n) :
    pyRstripSlash (childPath p n) = childPath p n :=
  pyRstripSlash_append_no_slash (pyRstripSlash p) n hn1 hn2

theorem pyRstripSlash_length_le (s : List Char) :
    (pyRstripSlash s).length ≤ s.length := by
  unfold pyRstripSlash
  have h := (List.dropWhile_sublist (l := s.reverse)
    (p := fun c => decide (c = '/'))).length_le
  simpa using h

theorem renderPath_snoc (root : List Char) (ns : List (List Char)) (n : List Char) :
    renderPath root (ns ++ [n]) = childPath (renderPath root ns) n := by
  induction ns generalizing root with
  | nil => rfl
  | cons m ms ih =>
    show renderPath (childPath root m) (ms ++ [n]) =
      childPath (renderPath (childPath root m) ms) n
    exact ih (childPath root m)

theorem renderPath_rstrip (root : List Char) (ns : List (List Char))
    (hns : ∀ n ∈ ns, n ≠ [] ∧ '/' ∉ n) (hne : ns ≠ []) :
    pyRstripSlash (renderPath root ns) = renderPath root ns := by
  induction ns generalizing root with
  | nil => exact absurd rfl hne
  | cons m ms ih =>
    cases ms with
    | nil =>
      simp only [renderPath]
      obtain ⟨h1, h2⟩ := hns m (List.mem_cons_self m [])
      exact pyRstripSlash_childPath root m h1 h2
    | cons y ys =>
      simp only [renderPath]
      exact ih (childPath root m) (fun n hn => hns n (List.mem_cons_of_mem m hn))
        (by simp)

theorem renderPath_length_ge (root : List Char) (ns : List (List Char))
    (hns : ∀ n ∈ ns, n ≠ [] ∧ '/' ∉ n) (hne : ns ≠ []) :
    (renderPath root ns).length ≥ (pyRstripSlash root).length + 2 := by
  induction ns generalizing root with
  | nil => exact absurd rfl hne
  | cons m ms ih =>
    obtain ⟨h1, h2⟩ := hns m (List.mem_cons_self m ms)
    have hlen1 : (childPath root m).length ≥ (pyRstripSlash root).length + 2 := by
      simp only [childPath, List.length_append, List.length_cons]
      have : m.length ≥ 1 := by
        cases m with
        | nil => exact absurd rfl h1
        | cons a b => simp
      omega
    cases ms with
    | nil =>
      show (childPath root m).length ≥ (pyRstripSlash root).length + 2
      exact hlen1
    | cons y ys =>
      show (renderPath (childPath root m) (y :: ys)).length ≥
        (pyRstripSlash root).length + 2
      have hrec := ih (childPath root m)
        (fun n hn => hns n (List.mem_cons_of_mem m hn)) (by simp)
      have hstrip : pyRstripSlash (childPath root m) = childPath root m :=
        pyRstripSlash_childPath root m h1 h2
      rw [hstrip] at hrec
      omega

theorem renderPath_rstrip_length_ge (root : List Char) (ns : List (List Char))
    (hns : ∀ n ∈ ns, n ≠ [] ∧ '/' ∉ n) :
    (pyRstripSlash (renderPath root ns)).length ≥ (pyRstripSlash root).length := by
  cases hne : ns with
  | nil => simp [renderPath]
  | cons m ms =>
    rw [← hne]
    rw [renderPath_rstrip root ns hns (by simp [hne])]
    have := renderPath_length_ge root ns hns (by simp [hne])
    omega

theorem renderPath_inj (ns ms : List (List Char)) (root : List Char)
    (hns : ∀ n ∈ ns, n ≠ [] ∧ '/' ∉ n) (hms : ∀ n ∈ ms, n ≠ [] ∧ '/' ∉ n)
    (heq : renderPath root ns = renderPath root ms) : ns = ms := by
  induction ns using List.reverseRecOn generalizing ms with
  | nil =>
    rcases List.eq_nil_or_concat ms with hm | ⟨ms', m, hm⟩
    · rw [hm]
    · exfalso
      rw [List.concat_eq_append] at hm
      subst hm
      rw [renderPath_snoc] at heq
      obtain ⟨hm1, hm2⟩ := hms m (by simp)
      have hrootstrip : pyRstripSlash root = root := by
        have : renderPath root [] = root := rfl
        rw [this] at heq
        rw [heq]
        exact pyRstripSlash_childPath _ m hm1 hm2
      have hge : (pyRstripSlash (renderPath root ms')).length ≥
          (pyRstripSlash root).length :=
        renderPath_rstrip_length_ge root ms' (fun n hn => hms n (by simp [hn]))
      have hlen : root.length = (pyRstripSlash (renderPath root ms')).length
          + (m.length + 1) := by
        have h0 : (renderPath root ([] : List (List Char))).length =
            (childPath (renderPath root ms') m).length := by
          rw [heq]
        simpa [renderPath, childPath] using h0
      have hmlen : m.length ≥ 1 := by
        cases m with
        | nil => exact absurd rfl hm1
        | cons a b => simp
      rw [hrootstrip] at hge
      omega
  | append_singleton ns' n ihn =>
    rcases List.eq_nil_or_concat ms with hm | ⟨ms', m, hm⟩
    · exfalso
      subst hm
      rw [renderPath_snoc] at heq
      obtain ⟨hn1, hn2⟩ := hns n (by simp)
      have hrootstrip : pyRstripSlash root = root := by
        have : renderPath root [] = root := rfl
        rw [this] at heq
        rw [← heq]
        exact pyRstripSlash_childPath _ n hn1 hn2
      have hge : (pyRstripSlash (renderPath root ns')).length ≥
          (pyRstripSlash root).length :=
        renderPath_rstrip_length_ge root ns' (fun x hx => hns x (by simp [hx]))
      have hlen : root.length = (pyRstripSlash (renderPath root ns')).length
          + (n.length + 1) := by
        have h0 : (renderPath root ([] : List (List Char))).length =
            (childPath (renderPath root ns') n).length := by
          rw [← heq]
        simpa [renderPath, childPath] using h0
      have hnlen : n.length ≥ 1 := by
        cases n with
        | nil => exact absurd rfl hn1
        | cons a b => simp
      rw [hrootstrip] at hge
      omega
    · rw [List.concat_eq_append] at hm
      subst hm
      rw [renderPath_snoc, renderPath_snoc] at heq
      obtain ⟨hn1, hn2⟩ := hns n (by simp)
      obtain ⟨hm1, hm2⟩ := hms m (by simp)
      obtain ⟨hstrip, hnm⟩ := childPath_inj _ _ _ _ hn1 hn2 hm1 hm2 heq
      subst hnm
      have hns' : ∀ x ∈ ns', x ≠ [] ∧ '/' ∉ x := fun x hx => hns x (by simp [hx])
      have hms' : ∀ x ∈ ms', x ≠ [] ∧ '/' ∉ x := fun x hx => hms x (by simp [hx])
      have hrr : renderPath root ns' = renderPath root ms' := by
        cases hne1 : ns' with
        | nil =>
          cases hne2 : ms' with
          | nil => rfl
          | cons y ys =>
            exfalso
            subst hne1
            rw [renderPath_rstrip root ms' hms' (by simp [hne2])] at hstrip
            have hge := renderPath_length_ge root ms' hms' (by simp [hne2])
            have h1 : renderPath root ([] : List (List Char)) = root := rfl
            rw [h1] at hstrip
            have := pyRstripSlash_length_le root
            rw [← hstrip] at hge
            omega
        | cons y ys =>
          cases hne2 : ms' with
          | nil =>
            exfalso
            subst hne2
            rw [renderPath_rstrip root ns' hns' (by simp [hne1])] at hstrip
            have hge := renderPath_length_ge root ns' hns' (by simp [hne1])
            have h1 : renderPath root ([] : List (List Char)) = root := rfl
            rw [h1] at hstrip
            have := pyRstripSlash_length_le root
            rw [hstrip] at hge
            omega
          | cons z zs =>
            rw [← hne1, ← hne2]
            rw [renderPath_rstrip root ns' hns' (by simp [hne1]),
              renderPath_rstrip root ms' hms' (by simp [hne2])] at hstrip
            exact hstrip
      rw [ihn ms' hns' hms' hrr]

theorem goodForest_mem (cs : List (List Char × STree)) (h : goodForest cs = true) :
    ∀ p ∈ cs, p.1 ≠ [] ∧ '/' ∉ p.1 ∧ goodScene p.2 = true := by
  induction cs with
  | nil => intro p hp; simp at hp
  | cons hd tl ih =>
    obtain ⟨n, t⟩ := hd
    cases t with
    | mk cs' =>
      simp only [goodForest, Bool.and_eq_true, decide_eq_true_eq] at h
      obtain ⟨⟨⟨⟨h1, h2⟩, h3⟩, h4⟩, h5⟩ := h
      intro p hp
      rcases List.mem_cons.mp hp with hp1 | hp1
      · subst hp1
        refine ⟨h1, h2, ?_⟩
        simp [goodScene, h3, h4]
      · exact ih h5 p hp1

theorem goodScene_forest (t : STree) (hg : goodScene t = true) :
    ((t.children.map Prod.fst).Nodup) ∧ goodForest t.children = true := by
  cases t with
  | mk cs =>
    simp only [goodScene, Bool.and_eq_true, decide_eq_true_eq] at hg
    exact ⟨hg.1, hg.2⟩

theorem seqsAtDepth_good (d : Nat) (t : STree) (hg : goodScene t = true) :
    ∀ s ∈ seqsAtDepth d t, ∀ n ∈ s, n ≠ [] ∧ '/' ∉ n := by
  induction d generalizing t with
  | zero =>
    intro s hs
    simp only [seqsAtDepth, List.mem_singleton] at hs
    subst hs
    intro n hn
    simp at hn
  | succ d ih =>
    intro s hs
    simp only [seqsAtDepth, List.mem_flatten, List.mem_map] at hs
    obtain ⟨l, ⟨c, hc, hcl⟩, hsl⟩ := hs
    subst hcl
    simp only [List.mem_map] at hsl
    obtain ⟨s', hs', hss⟩ := hsl
    subst hss
    obtain ⟨hc1, hc2, hc3⟩ := goodForest_mem t.children (goodScene_forest t hg).2 c hc
    intro n hn
    rcases List.mem_cons.mp hn with hn1 | hn1
    · subst hn1; exact ⟨hc1, hc2⟩
    · exact ih c.2 hc3 s' hs' n hn1

theorem seqsAtDepth_length_eq (d : Nat) (t : STree) :
    ∀ s ∈ seqsAtDepth d t, s.length = d := by
  induction d generalizing t with
  | zero =>
    intro s hs
    simp only [seqsAtDepth, List.mem_singleton] at hs
    simp [hs]
  | succ d ih =>
    intro s hs
    simp only [seqsAtDepth, List.mem_flatten, List.mem_map] at hs
    obtain ⟨l, ⟨c, hc, hcl⟩, hsl⟩ := hs
    subst hcl
    simp only [List.mem_map] at hsl
    obtain ⟨s', hs', hss⟩ := hsl
    subst hss
    simp [ih c.2 s' hs']

theorem seqsAtDepth_nodup (d : Nat) (t : STree) (hg : goodScene t = true) :
    (seqsAtDepth d t).Nodup := by
  induction d generalizing t with
  | zero => simp [seqsAtDepth]
  | succ d ih =>
    simp only [seqsAtDepth]
    rw [List.nodup_flatten]
    constructor
    · intro l hl
      simp only [List.mem_map] at hl
      obtain ⟨c, hc, hcl⟩ := hl
      subst hcl
      apply List.Nodup.map
      · intro a b hab
        simpa using hab
      · exact ih c.2
          (goodForest_mem t.children (goodScene_forest t hg).2 c hc).2.2
    · have hfst : (t.children.map Prod.fst).Nodup := (goodScene_forest t hg).1
      have hpw : t.children.Pairwise (fun a b => a.1 ≠ b.1) := by
        have h' := hfst
        unfold List.Nodup at h'
        rw [List.pairwise_map] at h'
        exact h'
      rw [List.pairwise_map]
      refine hpw.imp ?_
      intro a b hab
      intro s hsa hsb
      simp only [List.mem_map] at hsa hsb
      obtain ⟨sa, _, hsa2⟩ := hsa
      obtain ⟨sb, _, hsb2⟩ := hsb
      rw [← hsb2] at hsa2
      exact hab (by injection hsa2)

theorem pathsAtDepth_nodup (d : Nat) (root : List Char) (t : STree)
    (hg : goodScene t = true) : (pathsAtDepth d root t).Nodup := by
  rw [pathsAtDepth_eq_render]
  exact (seqsAtDepth_nodup d t hg).map_on (fun x hx y hy hxy =>
    renderPath_inj x y root (seqsAtDepth_good d t hg x hx)
      (seqsAtDepth_good d t hg y hy) hxy)

/-- C9: `traverse_scene(scene_plug, root)` yields the root path first
and then every descendant path exactly once, in breadth-first order:
the output is exactly the concatenation, depth by depth, of the paths
at each depth below the root (each child path being its parent's path
with any trailing `/` stripped, joined to the child name by `/`), and
under the host's naming invariants (distinct sibling names, names
nonempty and without `/`) no path is yielded twice. -/
theorem traverse_scene_spec (t : STree) (root : List Char)
    (hg : goodScene t = true) :
    traverse_scene t root =
      ((List.range t.size).map (fun d => pathsAtDepth d root t)).flatten
    ∧ (traverse_scene t root).Nodup := by
  have hsize : sizeForest [(root, t)] ≤ t.size := by
    cases t with
    | mk cs => simp [sizeForest, STree.size]
  have hmain : traverse_scene t root =
      ((List.range t.size).map (fun d => pathsAtDepth d root t)).flatten := by
    unfold traverse_scene
    rw [traverseQueue_levels t.size [(root, t)] hsize]
    congr 1
    apply List.map_congr_left
    intro d _
    simp [forestPathsAtDepth]
  refine ⟨hmain, ?_⟩
  rw [hmain, List.nodup_flatten]
  constructor
  · intro l hl
    simp only [List.mem_map] at hl
    obtain ⟨d, _, hdl⟩ := hl
    rw [← hdl]
    exact pathsAtDepth_nodup d root t hg
  · rw [List.pairwise_map]
    have hlt : (List.range t.size).Pairwise (· < ·) := List.pairwise_lt_range t.size
    refine hlt.imp ?_
    intro a b hab
    intro x hxa hxb
    rw [pathsAtDepth_eq_render] at hxa hxb
    simp only [List.mem_map] at hxa hxb
    obtain ⟨sa, hsa, hsa2⟩ := hxa
    obtain ⟨sb, hsb, hsb2⟩ := hxb
    have hseq : sa = sb := renderPath_inj sa sb root
      (seqsAtDepth_good a t hg sa hsa) (seqsAtDepth_good b t hg sb hsb)
      (hsa2.trans hsb2.symm)
    have la := seqsAtDepth_length_eq a t sa hsa
    have lb := seqsAtDepth_length_eq b t sb hsb
    rw [hseq, lb] at la
    omega

/-- Witness for C9 on a concrete two-level scene. -/
theorem traverse_scene_spec_witness :
    traverse_scene (STree.mk [("a".data, STree.mk [("c".data, STree.mk [])]),
        ("b".data, STree.mk [])]) ("/".data) =
      ((List.range (STree.mk [("a".data, STree.mk [("c".data, STree.mk [])]),
          ("b".data, STree.mk [])]).size).map
        (fun d => pathsAtDepth d ("/".data)
          (STree.mk [("a".data, STree.mk [("c".data, STree.mk [])]),
            ("b".data, STree.mk [])]))).flatten
    ∧ (traverse_scene (STree.mk [("a".data, STree.mk [("c".data, STree.mk [])]),
        ("b".data, STree.mk [])]) ("/".data)).Nodup :=
  traverse_scene_spec _ _ (by simp [goodScene, goodForest])

/- ===================================================================
   Claim C7 - replace_node connection preservation
   =================================================================== -/

theorem find?_filter_of_imp {α : Type} (l : List α) (p q : α → Bool)
    (h : ∀ e, p e = true → q e = true) :
    (l.filter q).find? p = l.find? p := by
  induction l with
  | nil => rfl
  | cons a t ih =>
    by_cases hp : p a = true
    · rw [List.filter_cons_of_pos (h a hp)]
      rw [List.find?_cons_of_pos _ hp, List.find?_cons_of_pos _ hp]
    · have hp' : p a = false := by
        cases hpa : p a with
        | false => rfl
        | true => exact absurd hpa hp
      by_cases hq : q a = true
      · rw [List.filter_cons_of_pos hq, List.find?_cons_of_neg _ (by simp [hp']),
          List.find?_cons_of_neg _ (by simp [hp']), ih]
      · rw [List.filter_cons_of_neg (by simpa using hq), ih,
          List.find?_cons_of_neg _ (by simp [hp'])]

theorem getInput_setInput (s : GScript) (a : Addr) (v : Option Addr) (b : Addr) :
    getInput (setInput s a v) b = if b = a then v else getInput s b := by
  unfold getInput setInput
  simp only []
  by_cases hba : b = a
  · subst hba
    rw [if_pos rfl]
    rw [List.find?_append]
    have hnone : (s.inputs.filter (fun e => !(decide (e.1 = b)))).find?
        (fun e => e.1 = b) = none := by
      rw [List.find?_eq_none]
      intro x hx
      have := List.of_mem_filter hx
      simpa using this
    rw [hnone]
    cases v with
    | none => rfl
    | some x => simp [List.find?]
  · rw [if_neg hba]
    rw [List.find?_append]
    have hfilter : (s.inputs.filter (fun e => !(decide (e.1 = a)))).find?
        (fun e => decide (e.1 = b)) = s.inputs.find? (fun e => decide (e.1 = b)) := by
      apply find?_filter_of_imp
      intro e he
      simp only [decide_eq_true_eq] at he
      simp [he, hba]
    cases v with
    | none => simp [hfilter]
    | some x =>
      rw [hfilter]
      cases hf : s.inputs.find? (fun e => decide (e.1 = b)) with
      | some y => simp
      | none =>
        simp only [Option.none_orElse]
        rw [List.find?_cons_of_neg _ (by simpa using fun hc : a = b => hba hc.symm)]
        simp [List.find?]

theorem getInput_foldl_outs (s : GScript) (outs : List Addr) (v : Option Addr)
    (x : Addr) :
    getInput (outs.foldl (fun acc o => setInput acc o v) s) x =
      if x ∈ outs then v else getInput s x := by
  induction outs generalizing s with
  | nil => simp
  | cons o os ih =>
    simp only [List.foldl_cons]
    rw [ih (setInput s o v), getInput_setInput]
    by_cases h1 : x ∈ os
    · simp [h1]
    · by_cases h2 : x = o <;> simp [h1, h2]

theorem getInput_foldl_ins (s : GScript) (ins : List Addr) (tgt : Addr) (x : Addr) :
    getInput (ins.foldl (fun acc i => setInput acc tgt (some i)) s) x =
      (match ins.getLast? with
       | some i => if x = tgt then some i else getInput s x
       | none => getInput s x) := by
  induction ins generalizing s with
  | nil => simp
  | cons i is ih =>
    simp only [List.foldl_cons]
    rw [ih (setInput s tgt (some i))]
    cases his : is.getLast? with
    | some j =>
      have : (i :: is).getLast? = some j := by
        cases is with
        | nil => simp at his
        | cons a b => rw [List.getLast?_cons_cons, his]
      rw [this]
      by_cases hx : x = tgt <;> simp [hx, getInput_setInput]
    | none =>
      have hisnil : is = [] := by
        cases is with
        | nil => rfl
        | cons a b => simp [List.getLast?_cons_cons] at his
          
      subst hisnil
      simp [getInput_setInput]

theorem getInput_rewireStep (newN : GNode) (en : ConnEntry) (s : GScript) (x : Addr) :
    getInput (rewireStep newN s en) x =
      (match entryWrites newN en x with
       | some v => v
       | none => getInput s x) := by
  unfold rewireStep entryWrites
  cases hf : findPlug en.src newN.plugs with
  | some t =>
    rw [getInput_foldl_outs]
    by_cases ho : x ∈ en.outs
    · simp [ho]
    · rw [if_neg ho]
      rw [getInput_foldl_ins]
      by_cases hx : x = (⟨newN.nid, en.src⟩ : Addr)
      · subst hx
        cases hl : en.ins.getLast? with
        | some i => simp [hl, ho]
        | none => simp [hl, ho]
      · cases hl : en.ins.getLast? with
        | some i => simp [hx, hl, ho]
        | none => simp [hx, hl, ho]
  | none =>
    rw [getInput_foldl_outs]
    by_cases ho : x ∈ en.outs <;> simp [ho]

theorem lastWrite_foldl_init (newN : GNode) (L : List ConnEntry) (x : Addr)
    (a : Option (Option Addr)) :
    L.foldl (fun acc en =>
      match entryWrites newN en x with
      | some v => some v
      | none => acc) a =
    (match lastWrite newN L x with
     | some v => some v
     | none => a) := by
  induction L generalizing a with
  | nil => simp [lastWrite]
  | cons en L' ih =>
    simp only [List.foldl_cons]
    rw [ih]
    have hLW : lastWrite newN (en :: L') x =
        (match lastWrite newN L' x with
         | some v => some v
         | none => match entryWrites newN en x with
                   | some v => some v
                   | none => none) := by
      unfold lastWrite
      simp only [List.foldl_cons]
      rw [ih]
      rfl
    rw [hLW]
    cases hlw : lastWrite newN L' x with
    | some v => rfl
    | none =>
      cases hew : entryWrites newN en x <;> rfl

theorem getInput_rewire_foldl (newN : GNode) (L : List ConnEntry) (s : GScript)
    (x : Addr) :
    getInput (L.foldl (rewireStep newN) s) x =
      (match lastWrite newN L x with
       | some v => v
       | none => getInput s x) := by
  induction L generalizing s with
  | nil => simp [lastWrite]
  | cons en L' ih =>
    simp only [List.foldl_cons]
    rw [ih (rewireStep newN s en)]
    have hLW : lastWrite newN (en :: L') x =
        (match lastWrite newN L' x with
         | some v => some v
         | none => match entryWrites newN en x with
                   | some v => some v
                   | none => none) := by
      unfold lastWrite
      simp only [List.foldl_cons]
      rw [lastWrite_foldl_init]
      rfl
    rw [hLW]
    cases hlw : lastWrite newN L' x with
    | some v => rfl
    | none =>
      cases hew : entryWrites newN en x with
      | some v => simp [getInput_rewireStep, hew]
      | none => simp [getInput_rewireStep, hew]

theorem lastWrite_of_unique (newN : GNode) (L : List ConnEntry) (x : Addr)
    (v : Option Addr)
    (hall : ∀ en ∈ L, entryWrites newN en x = none ∨ entryWrites newN en x = some v)
    (hex : ∃ en ∈ L, entryWrites newN en x = some v) :
    lastWrite newN L x = some v := by
  have aux : ∀ (L2 : List ConnEntry) (a : Option (Option Addr)),
      (∀ en ∈ L2, entryWrites newN en x = none ∨ entryWrites newN en x = some v) →
      (a = some v ∨ ∃ en ∈ L2, entryWrites newN en x = some v) →
      L2.foldl (fun acc en =>
        match entryWrites newN en x with
        | some w => some w
        | none => acc) a = some v := by
    intro L2
    induction L2 with
    | nil =>
      intro a hall2 ha
      rcases ha with ha | ⟨en, hen, _⟩
      · simpa using ha
      · simp at hen
    | cons en L' ih =>
      intro a hall2 ha
      simp only [List.foldl_cons]
      have hall' : ∀ e ∈ L', entryWrites newN e x = none ∨
          entryWrites newN e x = some v := fun e he => hall2 e (List.mem_cons_of_mem en he)
      cases hew : entryWrites newN en x with
      | some w =>
        have hw : w = v := by
          rcases hall2 en (List.mem_cons_self en L') with h | h
          · rw [hew] at h; exact absurd h (by simp)
          · rw [hew] at h; injection h
        subst hw
        exact ih (some w) hall' (Or.inl rfl)
      | none =>
        apply ih a hall'
        rcases ha with ha | ⟨e0, he0, hw0⟩
        · exact Or.inl ha
        · rcases List.mem_cons.mp he0 with h | h
          · subst h; rw [hew] at hw0; exact absurd hw0 (by simp)
          · exact Or.inr ⟨e0, h, hw0⟩
  exact aux L none hall (Or.inr hex)

theorem keys_nodup_setInput (s : GScript) (a : Addr) (v : Option Addr)
    (h : (s.inputs.map (·.1)).Nodup) :
    (((setInput s a v).inputs).map (·.1)).Nodup := by
  unfold setInput
  simp only [List.map_append]
  have hsub : ((s.inputs.filter (fun e => !(decide (e.1 = a)))).map (·.1)).Sublist
      (s.inputs.map (·.1)) := (List.filter_sublist _).map _
  have hleft := h.sublist hsub
  cases v with
  | none => simpa using hleft
  | some x =>
    simp only [List.map_cons, List.map_nil]
    rw [List.nodup_append]
    refine ⟨hleft, by simp, ?_⟩
    intro y hy
    simp only [List.mem_map] at hy
    obtain ⟨en, hen, hy2⟩ := hy
    have := List.of_mem_filter hen
    simp only [Bool.not_eq_true', decide_eq_false_iff_not] at this
    simp only [List.mem_singleton]
    intro hc
    exact this (hy2.trans hc)

theorem keys_nodup_foldl_outs (s : GScript) (outs : List Addr) (v : Option Addr)
    (h : (s.inputs.map (·.1)).Nodup) :
    (((outs.foldl (fun acc o => setInput acc o v) s).inputs).map (·.1)).Nodup := by
  induction outs generalizing s with
  | nil => exact h
  | cons o os ih => exact ih (setInput s o v) (keys_nodup_setInput s o v h)

theorem keys_nodup_foldl_ins (s : GScript) (ins : List Addr) (tgt : Addr)
    (h : (s.inputs.map (·.1)).Nodup) :
    (((ins.foldl (fun acc i => setInput acc tgt (some i)) s).inputs).map (·.1)).Nodup := by
  induction ins generalizing s with
  | nil => exact h
  | cons i is ih => exact ih (setInput s tgt (some i)) (keys_nodup_setInput s tgt (some i) h)

theorem keys_nodup_rewireStep (newN : GNode) (en : ConnEntry) (s : GScript)
    (h : (s.inputs.map (·.1)).Nodup) :
    (((rewireStep newN s en).inputs).map (·.1)).Nodup := by
  unfold rewireStep
  cases findPlug en.src newN.plugs with
  | some t =>
    exact keys_nodup_foldl_outs _ _ _ (keys_nodup_foldl_ins _ _ _ h)
  | none =>
    exact keys_nodup_foldl_outs _ _ _ h

theorem keys_nodup_rewire_foldl (newN : GNode) (L : List ConnEntry) (s : GScript)
    (h : (s.inputs.map (·.1)).Nodup) :
    (((L.foldl (rewireStep newN) s).inputs).map (·.1)).Nodup := by
  induction L generalizing s with
  | nil => exact h
  | cons en L' ih => exact ih (rewireStep newN s en) (keys_nodup_rewireStep newN en s h)

theorem getInput_mem (s : GScript) (e v : Addr) (h : getInput s e = some v) :
    (e, v) ∈ s.inputs := by
  unfold getInput at h
  cases hf : s.inputs.find? (fun en => en.1 = e) with
  | none => rw [hf] at h; simp at h
  | some q =>
    rw [hf] at h
    simp only [Option.map_some', Option.some.injEq] at h
    have hmem := List.mem_of_find?_eq_some hf
    have hkey := List.find?_some hf
    simp only [decide_eq_true_eq] at hkey
    have : q = (e, v) := Prod.ext hkey h
    exact this ▸ hmem

theorem keys_nodup_mem_unique (l : List (Addr × Addr))
    (h : (l.map (·.1)).Nodup) (e v1 v2 : Addr)
    (h1 : (e, v1) ∈ l) (h2 : (e, v2) ∈ l) : v1 = v2 := by
  induction l with
  | nil => simp at h1
  | cons a t ih =>
    simp only [List.map_cons, List.nodup_cons] at h
    rcases List.mem_cons.mp h1 with hm1 | hm1 <;>
      rcases List.mem_cons.mp h2 with hm2 | hm2
    · rw [← hm1] at hm2
      injection hm2 with ha hb
      exact hb.symm
    · exfalso
      apply h.1
      exact List.mem_map.mpr ⟨(e, v2), hm2, by rw [← hm1]⟩
    · exfalso
      apply h.1
      exact List.mem_map.mpr ⟨(e, v1), hm1, by rw [← hm2]⟩
    · exact ih h.2 hm1 hm2

theorem find?_filter_keep (l : List (Addr × Addr)) (q : Addr × Addr → Bool)
    (e v : Addr) (hnd : (l.map (·.1)).Nodup)
    (h : (l.find? (fun en => en.1 = e)).map (·.2) = some v)
    (hq : q (e, v) = true) :
    ((l.filter q).find? (fun en => en.1 = e)).map (·.2) = some v := by
  induction l with
  | nil => simp [List.find?] at h
  | cons a t ih =>
    simp only [List.map_cons, List.nodup_cons] at hnd
    by_cases ha : a.1 = e
    · rw [List.find?_cons_of_pos _ (by simpa using ha)] at h
      simp only [Option.map_some', Option.some.injEq] at h
      have haev : a = (e, v) := Prod.ext ha h
      subst haev
      rw [List.filter_cons_of_pos hq]
      rw [List.find?_cons_of_pos _ (by simp)]
      rfl
    · rw [List.find?_cons_of_neg _ (by simpa using ha)] at h
      by_cases hqa : q a = true
      · rw [List.filter_cons_of_pos hqa]
        rw [List.find?_cons_of_neg _ (by simpa using ha)]
        exact ih hnd.2 h
      · rw [List.filter_cons_of_neg (by simpa using hqa)]
        exact ih hnd.2 h

theorem mkConnEntry_src (s : GScript) (n : GNode) (p : List String) (en : ConnEntry)
    (h : mkConnEntry s n p = some en) : en.src = p := by
  unfold mkConnEntry at h
  cases hf : findPlug p n.plugs with
  | none => rw [hf] at h; simp at h
  | some t =>
    rw [hf] at h
    by_cases hser : t.ser
    · simp only [hser, Bool.not_true, Bool.false_eq_true, if_false] at h
      split at h
      · simp at h
      · simp only [Option.some.injEq] at h
        rw [← h]
    · simp [hser] at h

theorem mkConnEntry_outs (s : GScript) (n : GNode) (p : List String) (en : ConnEntry)
    (h : mkConnEntry s n p = some en) :
    ∀ o ∈ en.outs, (o, (⟨n.nid, p⟩ : Addr)) ∈ s.inputs ∧ o.node ≠ n.nid := by
  unfold mkConnEntry at h
  cases hf : findPlug p n.plugs with
  | none => rw [hf] at h; simp at h
  | some t =>
    rw [hf] at h
    by_cases hser : t.ser
    · simp only [hser, Bool.not_true, Bool.false_eq_true, if_false] at h
      split at h
      · simp at h
      · simp only [Option.some.injEq] at h
        intro o ho
        rw [← h] at ho
        simp only at ho
        have ho2 := List.mem_filter.mp ho
        obtain ⟨ho3, ho4⟩ := ho2
        simp only [decide_eq_true_eq] at ho4
        refine ⟨?_, ho4⟩
        unfold outputsOf at ho3
        simp only [List.mem_map] at ho3
        obtain ⟨pair, hpair, hpo⟩ := ho3
        have hp2 := List.mem_filter.mp hpair
        have : pair = (o, (⟨n.nid, p⟩ : Addr)) := by
          apply Prod.ext hpo
          simpa using hp2.2
        exact this ▸ hp2.1
    · simp [hser] at h

theorem mkConnEntry_ins (s : GScript) (n : GNode) (p : List String) (en : ConnEntry)
    (h : mkConnEntry s n p = some en) :
    en.ins = [] ∨ ∃ i, en.ins = [i] ∧ getInput s ⟨n.nid, p⟩ = some i ∧ i.node ≠ n.nid := by
  unfold mkConnEntry at h
  cases hf : findPlug p n.plugs with
  | none => rw [hf] at h; simp at h
  | some t =>
    rw [hf] at h
    by_cases hser : t.ser
    · simp only [hser, Bool.not_true, Bool.false_eq_true, if_false] at h
      split at h
      · simp at h
      · simp only [Option.some.injEq] at h
        rw [← h]
        simp only
        cases hin : getInput s ⟨n.nid, p⟩ with
        | none => left; rfl
        | some i =>
          by_cases hi : i.node = n.nid
          · left; simp [hi]
          · right; exact ⟨i, by simp [hi], rfl, hi⟩
    · simp [hser] at h

theorem mkConnEntry_of_input (s : GScript) (old : GNode) (p : List String)
    (t : PlugTree) (ht : findPlug p old.plugs = some t) (hser : t.ser = true)
    (src : Addr) (hsrc : getInput s ⟨old.nid, p⟩ = some src)
    (hext : src.node ≠ old.nid) :
    mkConnEntry s old p = some
      ⟨p, [src], (outputsOf s ⟨old.nid, p⟩).filter (fun o => o.node ≠ old.nid)⟩ := by
  unfold mkConnEntry
  rw [ht]
  simp [hser, hsrc, hext]

theorem nodes_setInput (s : GScript) (a : Addr) (v : Option Addr) :
    (setInput s a v).nodes = s.nodes := rfl

theorem nodes_rewireStep (newN : GNode) (en : ConnEntry) (s : GScript) :
    (rewireStep newN s en).nodes = s.nodes := by
  unfold rewireStep
  cases findPlug en.src newN.plugs with
  | some t =>
    have h1 : ∀ (l : List Addr) (s' : GScript) (tgt : Addr),
        ((l.foldl (fun acc i => setInput acc tgt (some i)) s').nodes) = s'.nodes := by
      intro l
      induction l with
      | nil => intro s' tgt; rfl
      | cons i is ih => intro s' tgt; simp only [List.foldl_cons]; rw [ih]; rfl
    have h2 : ∀ (l : List Addr) (s' : GScript) (v : Option Addr),
        ((l.foldl (fun acc o => setInput acc o v) s').nodes) = s'.nodes := by
      intro l
      induction l with
      | nil => intro s' v; rfl
      | cons o os ih => intro s' v; simp only [List.foldl_cons]; rw [ih]; rfl
    rw [h2, h1]
  | none =>
    have h2 : ∀ (l : List Addr) (s' : GScript) (v : Option Addr),
        ((l.foldl (fun acc o => setInput acc o v) s').nodes) = s'.nodes := by
      intro l
      induction l with
      | nil => intro s' v; rfl
      | cons o os ih => intro s' v; simp only [List.foldl_cons]; rw [ih]; rfl
    rw [h2]

theorem nodes_rewire_foldl (newN : GNode) (L : List ConnEntry) (s : GScript) :
    ((L.foldl (rewireStep newN) s).nodes) = s.nodes := by
  induction L generalizing s with
  | nil => rfl
  | cons en L' ih =>
    simp only [List.foldl_cons]
    rw [ih, nodes_rewireStep]

theorem mkConnEntry_of_reader (s : GScript) (old : GNode) (q : List String)
    (t : PlugTree) (ht : findPlug q old.plugs = some t) (hser : t.ser = true)
    (e : Addr) (he : getInput s e = some ⟨old.nid, q⟩) (heext : e.node ≠ old.nid) :
    ∃ en, mkConnEntry s old q = some en ∧ en.src = q ∧ e ∈ en.outs := by
  have heout : e ∈ (outputsOf s ⟨old.nid, q⟩).filter (fun o => o.node ≠ old.nid) := by
    rw [List.mem_filter]
    constructor
    · unfold outputsOf
      apply List.mem_map.mpr
      refine ⟨(e, ⟨old.nid, q⟩), ?_, rfl⟩
      rw [List.mem_filter]
      exact ⟨getInput_mem s e _ he, by simp⟩
    · simpa using heext
  unfold mkConnEntry
  rw [ht]
  simp only [hser, Bool.not_true, Bool.false_eq_true, if_false]
  have houtne : (outputsOf s ⟨old.nid, q⟩).filter (fun o => o.node ≠ old.nid) ≠ [] :=
    fun hc => by rw [hc] at heout; simp at heout
  rw [if_neg (fun hc => houtne hc.2)]
  exact ⟨_, rfl, rfl, heout⟩

/-- Counterexample to C7 as stated: `replace_node` does not preserve the
connections of every plug of the old node - `get_node_connections`
deliberately skips non-serialisable plugs (`include_non_serializable`
defaults to `False`, lib.py:582, 619), so the external input of a
non-serialisable plug is not passed to the correspondingly named plug of
the new node: after the replacement that plug has no input at all, even
though the plug exists on the new node. -/
theorem replace_node_not_serialisable :
    findPlug ["p"] [("p", PlugTree.mk false none none [])] =
      some (PlugTree.mk false none none [])
    ∧ getInput
        ⟨[⟨0, "OldNode", [("p", PlugTree.mk false none none [])]⟩,
          ⟨1, "NewNode", [("p", PlugTree.mk true none none [])]⟩,
          ⟨2, "Ext", [("o", PlugTree.mk true none none [])]⟩],
         [(⟨0, ["p"]⟩, ⟨2, ["o"]⟩)]⟩ ⟨0, ["p"]⟩ = some ⟨2, ["o"]⟩
    ∧ findPlug ["p"] [("p", PlugTree.mk true none none [])] =
      some (PlugTree.mk true none none [])
    ∧ getInput (replace_node
        ⟨[⟨0, "OldNode", [("p", PlugTree.mk false none none [])]⟩,
          ⟨1, "NewNode", [("p", PlugTree.mk true none none [])]⟩,
          ⟨2, "Ext", [("o", PlugTree.mk true none none [])]⟩],
         [(⟨0, ["p"]⟩, ⟨2, ["o"]⟩)]⟩
        ⟨0, "OldNode", [("p", PlugTree.mk false none none [])]⟩
        ⟨1, "NewNode", [("p", PlugTree.mk true none none [])]⟩ [])
      ⟨1, ["p"]⟩ = none := by
  refine ⟨rfl, rfl, rfl, ?_⟩
  have hconns : get_node_connections
      ⟨[⟨0, "OldNode", [("p", PlugTree.mk false none none [])]⟩,
        ⟨1, "NewNode", [("p", PlugTree.mk true none none [])]⟩,
        ⟨2, "Ext", [("o", PlugTree.mk true none none [])]⟩],
       [(⟨0, ["p"]⟩, ⟨2, ["o"]⟩)]⟩
      ⟨0, "OldNode", [("p", PlugTree.mk false none none [])]⟩ = [] := by
    simp [get_node_connections, get_all_plugs, mkConnEntry, findPlug, PlugTree.ser]
  show ((((replace_node
        ⟨[⟨0, "OldNode", [("p", PlugTree.mk false none none [])]⟩,
          ⟨1, "NewNode", [("p", PlugTree.mk true none none [])]⟩,
          ⟨2, "Ext", [("o", PlugTree.mk true none none [])]⟩],
         [(⟨0, ["p"]⟩, ⟨2, ["o"]⟩)]⟩
        ⟨0, "OldNode", [("p", PlugTree.mk false none none [])]⟩
        ⟨1, "NewNode", [("p", PlugTree.mk true none none [])]⟩ []).inputs).find?
      (fun en => en.1 = ⟨1, ["p"]⟩)).map (·.2)) = none
  have hfin : (replace_node
      ⟨[⟨0, "OldNode", [("p", PlugTree.mk false none none [])]⟩,
        ⟨1, "NewNode", [("p", PlugTree.mk true none none [])]⟩,
        ⟨2, "Ext", [("o", PlugTree.mk true none none [])]⟩],
       [(⟨0, ["p"]⟩, ⟨2, ["o"]⟩)]⟩
      ⟨0, "OldNode", [("p", PlugTree.mk false none none [])]⟩
      ⟨1, "NewNode", [("p", PlugTree.mk true none none [])]⟩ []).inputs =
      (((get_node_connections
        ⟨[⟨0, "OldNode", [("p", PlugTree.mk false none none [])]⟩,
          ⟨1, "NewNode", [("p", PlugTree.mk true none none [])]⟩,
          ⟨2, "Ext", [("o", PlugTree.mk true none none [])]⟩],
         [(⟨0, ["p"]⟩, ⟨2, ["o"]⟩)]⟩
        ⟨0, "OldNode", [("p", PlugTree.mk false none none [])]⟩).foldl
        (rewireStep ⟨1, "NewNode", [("p", PlugTree.mk true none none [])]⟩)
        ⟨[⟨0, "OldNode", [("p", PlugTree.mk false none none [])]⟩,
          ⟨1, "NewNode", [("p", PlugTree.mk true none none [])]⟩,
          ⟨2, "Ext", [("o", PlugTree.mk true none none [])]⟩],
         [(⟨0, ["p"]⟩, ⟨2, ["o"]⟩)]⟩).inputs).filter
        (fun en => en.1.node ≠ (0 : Nat) ∧ en.2.node ≠ (0 : Nat)) := rfl
  rw [hfin, hconns]
  simp

/-- C7 as amended: `replace_node` preserves the connections of the
serialisable plugs of the old node (the plugs `get_node_connections`
considers; non-serialisable connections are deliberately skipped by the
source).  The two parts are independent: every serialisable plug of the
old node with an external input passes that input to the correspondingly
named plug of the new node when that plug exists, and every external
plug reading from a serialisable plug of the old node is reconnected to
the correspondingly named plug of the new node when that plug exists;
afterwards the old node is gone from the script and the new node
carries the old node's former name.  The top-level hypotheses encode the
host invariant that a plug has at most one input (distinct input-map
keys) and the claim's presupposition that the new node is a fresh
replacement, not itself wired to the old node. -/
theorem replace_node_amended (s : GScript) (old newN : GNode) (ig : List String)
    (hids : old.nid ≠ newN.nid)
    (hkeys : (s.inputs.map (·.1)).Nodup)
    (hno : ∀ b i, (b, i) ∈ s.inputs → i.node = old.nid → b.node ≠ newN.nid)
    (hnewmem : newN ∈ s.nodes) :
    (∀ (p : List String) (t tn : PlugTree) (src : Addr),
        p ∈ get_all_plugs old.plugs → findPlug p old.plugs = some t →
        t.ser = true → findPlug p newN.plugs = some tn →
        getInput s ⟨old.nid, p⟩ = some src → src.node ≠ old.nid →
        getInput (replace_node s old newN ig) ⟨newN.nid, p⟩ = some src)
    ∧ (∀ (q : List String) (t tn : PlugTree) (e : Addr),
        q ∈ get_all_plugs old.plugs → findPlug q old.plugs = some t →
        t.ser = true → findPlug q newN.plugs = some tn →
        getInput s e = some ⟨old.nid, q⟩ → e.node ≠ old.nid →
        getInput (replace_node s old newN ig) e = some ⟨newN.nid, q⟩)
    ∧ (∀ m ∈ (replace_node s old newN ig).nodes, m.nid ≠ old.nid)
    ∧ (∃ m ∈ (replace_node s old newN ig).nodes,
        m.nid = newN.nid ∧ m.name = old.name) := by
  have hout_not_new : ∀ (p' : List String) (en : ConnEntry),
      mkConnEntry s old p' = some en → ∀ o ∈ en.outs, o.node ≠ newN.nid := by
    intro p' en hmk o ho
    obtain ⟨hmem, _⟩ := mkConnEntry_outs s old p' en hmk o ho
    exact hno o ⟨old.nid, p'⟩ hmem rfl
  have hkeys1 : ((((get_node_connections s old).foldl (rewireStep newN) s).inputs).map
      (·.1)).Nodup := keys_nodup_rewire_foldl newN _ s hkeys
  have hfin : (replace_node s old newN ig).inputs =
      (((get_node_connections s old).foldl (rewireStep newN) s).inputs).filter
        (fun en => en.1.node ≠ old.nid ∧ en.2.node ≠ old.nid) := rfl
  refine ⟨?_, ?_, ?_, ?_⟩
  · -- every serialisable plug with an external input feeds the new node's plug
    intro p t tn src hp ht hser hnewp hsrc hsrcext
    have hE := mkConnEntry_of_input s old p t ht hser src hsrc hsrcext
    set E : ConnEntry :=
      ⟨p, [src], (outputsOf s ⟨old.nid, p⟩).filter (fun o => o.node ≠ old.nid)⟩ with hEdef
    have hEmem : E ∈ get_node_connections s old := by
      unfold get_node_connections
      exact List.mem_filterMap.mpr ⟨p, hp, hE⟩
    have hWE1 : entryWrites newN E ⟨newN.nid, p⟩ = some (some src) := by
      unfold entryWrites
      simp only [hEdef]
      rw [hnewp]
      rw [if_neg (fun hc => hout_not_new p E hE _ hc rfl)]
      simp
    have hall1 : ∀ en ∈ get_node_connections s old,
        entryWrites newN en ⟨newN.nid, p⟩ = none ∨
        entryWrites newN en ⟨newN.nid, p⟩ = some (some src) := by
      intro en hen
      obtain ⟨p', hp', hmk⟩ := List.mem_filterMap.mp hen
      have hps : en.src = p' := mkConnEntry_src s old p' en hmk
      by_cases hpp : p' = p
      · subst hpp
        rw [hE] at hmk
        injection hmk with hmk
        right
        rw [← hmk]
        exact hWE1
      · left
        unfold entryWrites
        have hnotout : (⟨newN.nid, p⟩ : Addr) ∉ en.outs :=
          fun hc => hout_not_new p' en hmk _ hc rfl
        have hnottgt : (⟨newN.nid, p⟩ : Addr) ≠ ⟨newN.nid, en.src⟩ := by
          intro hc
          injection hc with h1 h2
          exact hpp (hps ▸ h2.symm)
        cases findPlug en.src newN.plugs with
        | some t' => simp [hnotout, hnottgt]
        | none => simp [hnotout]
    have hs1a : getInput ((get_node_connections s old).foldl (rewireStep newN) s)
        ⟨newN.nid, p⟩ = some src := by
      rw [getInput_rewire_foldl]
      rw [lastWrite_of_unique newN _ _ (some src) hall1 ⟨E, hEmem, hWE1⟩]
    show ((((replace_node s old newN ig).inputs).find?
      (fun en => en.1 = ⟨newN.nid, p⟩)).map (·.2)) = some src
    rw [hfin]
    exact find?_filter_keep _ _ _ _ hkeys1 hs1a
      (by simp; exact ⟨fun hc => hids hc.symm, hsrcext⟩)
  · -- every external reader of a serialisable plug is repointed
    intro q t tn e hq ht hser hnewp he heext
    have henew : e.node ≠ newN.nid := hno e ⟨old.nid, q⟩ (getInput_mem s e _ he) rfl
    obtain ⟨E, hE, hEsrc, heout⟩ := mkConnEntry_of_reader s old q t ht hser e he heext
    have hEmem : E ∈ get_node_connections s old := by
      unfold get_node_connections
      exact List.mem_filterMap.mpr ⟨q, hq, hE⟩
    have hWE2 : entryWrites newN E e = some (some ⟨newN.nid, q⟩) := by
      unfold entryWrites
      rw [hEsrc, hnewp]
      rw [if_pos heout]
    have hall2 : ∀ en ∈ get_node_connections s old,
        entryWrites newN en e = none ∨
        entryWrites newN en e = some (some ⟨newN.nid, q⟩) := by
      intro en hen
      obtain ⟨p', hp', hmk⟩ := List.mem_filterMap.mp hen
      have hps : en.src = p' := mkConnEntry_src s old p' en hmk
      by_cases hpp : p' = q
      · subst hpp
        rw [hE] at hmk
        injection hmk with hmk
        right
        rw [← hmk]
        exact hWE2
      · left
        unfold entryWrites
        have hnotout : e ∉ en.outs := by
          intro hc
          obtain ⟨hmem, _⟩ := mkConnEntry_outs s old p' en hmk e hc
          have := keys_nodup_mem_unique s.inputs hkeys e _ _
            hmem (getInput_mem s e _ he)
          injection this with h1 h2
          exact hpp h2
        have hnottgt : e ≠ ⟨newN.nid, en.src⟩ := by
          intro hc
          exact henew (by rw [hc])
        cases findPlug en.src newN.plugs with
        | some t' => simp [hnotout, hnottgt]
        | none => simp [hnotout]
    have hs1b : getInput ((get_node_connections s old).foldl (rewireStep newN) s)
        e = some ⟨newN.nid, q⟩ := by
      rw [getInput_rewire_foldl]
      rw [lastWrite_of_unique newN _ _ (some ⟨newN.nid, q⟩) hall2 ⟨E, hEmem, hWE2⟩]
    show ((((replace_node s old newN ig).inputs).find?
      (fun en => en.1 = e)).map (·.2)) = some ⟨newN.nid, q⟩
    rw [hfin]
    exact find?_filter_keep _ _ _ _ hkeys1 hs1b
      (by simp; exact ⟨heext, fun hc => hids hc.symm⟩)
  · intro m hm
    have hfinN : (replace_node s old newN ig).nodes =
        ((((get_node_connections s old).foldl (rewireStep newN) s).nodes.map
          (fun m => if m.nid = newN.nid then
            ({ m with
                plugs := (plugData old ig).foldl (valueStep old) newN.plugs,
                name := old.name } : GNode) else m)).filter
          (fun m => m.nid ≠ old.nid)) := rfl
    rw [hfinN] at hm
    have := List.of_mem_filter hm
    simpa using this
  · have hfinN : (replace_node s old newN ig).nodes =
        ((((get_node_connections s old).foldl (rewireStep newN) s).nodes.map
          (fun m => if m.nid = newN.nid then
            ({ m with
                plugs := (plugData old ig).foldl (valueStep old) newN.plugs,
                name := old.name } : GNode) else m)).filter
          (fun m => m.nid ≠ old.nid)) := rfl
    have hnodes1 := nodes_rewire_foldl newN (get_node_connections s old) s
    have hmem1 : ({ newN with
        plugs := (plugData old ig).foldl (valueStep old) newN.plugs,
        name := old.name } : GNode) ∈ (replace_node s old newN ig).nodes := by
      rw [hfinN, hnodes1]
      apply List.mem_filter.mpr
      constructor
      · apply List.mem_map.mpr
        refine ⟨newN, hnewmem, ?_⟩
        rw [if_pos rfl]
      · simp
        exact fun hc => hids hc.symm
    exact ⟨_, hmem1, rfl, rfl⟩

/-- Witness for the amended C7: a four-node script in which the old
node's serialisable plug `p` reads from an external node and an external
reader reads from it; after `replace_node` the new node's plug `p` reads
from the external node, the reader reads from the new node's plug, the
old node is gone and the new node bears the old name. -/
theorem replace_node_amended_witness :
    getInput (replace_node
        ⟨[⟨0, "OldNode", [("p", PlugTree.mk true none none [])]⟩,
          ⟨1, "NewNode", [("p", PlugTree.mk true none none [])]⟩,
          ⟨2, "Ext", [("o", PlugTree.mk true none none [])]⟩,
          ⟨3, "Reader", [("r", PlugTree.mk true none none [])]⟩],
         [(⟨0, ["p"]⟩, ⟨2, ["o"]⟩), (⟨3, ["r"]⟩, ⟨0, ["p"]⟩)]⟩
        ⟨0, "OldNode", [("p", PlugTree.mk true none none [])]⟩
        ⟨1, "NewNode", [("p", PlugTree.mk true none none [])]⟩ [])
      ⟨1, ["p"]⟩ = some ⟨2, ["o"]⟩
    ∧ getInput (replace_node
        ⟨[⟨0, "OldNode", [("p", PlugTree.mk true none none [])]⟩,
          ⟨1, "NewNode", [("p", PlugTree.mk true none none [])]⟩,
          ⟨2, "Ext", [("o", PlugTree.mk true none none [])]⟩,
          ⟨3, "Reader", [("r", PlugTree.mk true none none [])]⟩],
         [(⟨0, ["p"]⟩, ⟨2, ["o"]⟩), (⟨3, ["r"]⟩, ⟨0, ["p"]⟩)]⟩
        ⟨0, "OldNode", [("p", PlugTree.mk true none none [])]⟩
        ⟨1, "NewNode", [("p", PlugTree.mk true none none [])]⟩ [])
      ⟨3, ["r"]⟩ = some ⟨1, ["p"]⟩
    ∧ (∀ m ∈ (replace_node
        ⟨[⟨0, "OldNode", [("p", PlugTree.mk true none none [])]⟩,
          ⟨1, "NewNode", [("p", PlugTree.mk true none none [])]⟩,
          ⟨2, "Ext", [("o", PlugTree.mk true none none [])]⟩,
          ⟨3, "Reader", [("r", PlugTree.mk true none none [])]⟩],
         [(⟨0, ["p"]⟩, ⟨2, ["o"]⟩), (⟨3, ["r"]⟩, ⟨0, ["p"]⟩)]⟩
        ⟨0, "OldNode", [("p", PlugTree.mk true none none [])]⟩
        ⟨1, "NewNode", [("p", PlugTree.mk true none none [])]⟩ []).nodes,
        m.nid ≠ (0 : Nat))
    ∧ (∃ m ∈ (replace_node
        ⟨[⟨0, "OldNode", [("p", PlugTree.mk true none none [])]⟩,
          ⟨1, "NewNode", [("p", PlugTree.mk true none none [])]⟩,
          ⟨2, "Ext", [("o", PlugTree.mk true none none [])]⟩,
          ⟨3, "Reader", [("r", PlugTree.mk true none none [])]⟩],
         [(⟨0, ["p"]⟩, ⟨2, ["o"]⟩), (⟨3, ["r"]⟩, ⟨0, ["p"]⟩)]⟩
        ⟨0, "OldNode", [("p", PlugTree.mk true none none [])]⟩
        ⟨1, "NewNode", [("p", PlugTree.mk true none none [])]⟩ []).nodes,
        m.nid = (1 : Nat) ∧ m.name = "OldNode") := by
  have h := replace_node_amended
    ⟨[⟨0, "OldNode", [("p", PlugTree.mk true none none [])]⟩,
      ⟨1, "NewNode", [("p", PlugTree.mk true none none [])]⟩,
      ⟨2, "Ext", [("o", PlugTree.mk true none none [])]⟩,
      ⟨3, "Reader", [("r", PlugTree.mk true none none [])]⟩],
     [(⟨0, ["p"]⟩, ⟨2, ["o"]⟩), (⟨3, ["r"]⟩, ⟨0, ["p"]⟩)]⟩
    ⟨0, "OldNode", [("p", PlugTree.mk true none none [])]⟩
    ⟨1, "NewNode", [("p", PlugTree.mk true none none [])]⟩ []
    (by decide) (by decide)
    (by
      intro b i hbi hi
      simp only [List.mem_cons, List.not_mem_nil, or_false, Prod.mk.injEq] at hbi
      rcases hbi with ⟨rfl, rfl⟩ | ⟨rfl, rfl⟩
      · simp at hi
      · decide)
    (List.mem_cons_of_mem _ (List.mem_cons_self _ _))
  exact ⟨h.1 ["p"] (PlugTree.mk true none none []) (PlugTree.mk true none none [])
      ⟨2, ["o"]⟩ (by simp [get_all_plugs]) rfl rfl rfl (by decide) (by decide),
    h.2.1 ["p"] (PlugTree.mk true none none []) (PlugTree.mk true none none [])
      ⟨3, ["r"]⟩ (by simp [get_all_plugs]) rfl rfl rfl (by decide) (by decide),
    h.2.2.1, h.2.2.2⟩
